import Mathlib

/-!
TXTSanitize (libdns/powerdns, `txtsanitize/txtsanitize.go`)

A shallow embedding of the Go function `TXTSanitize` and a verification of the
properties stated about it.

Byte strings are `List UInt8`.  Go's `int` indices are `Int` (a length never
reaches 2^63, so no wrap-around is involved).  Every index expression `s[i]`
and slice expression `s[lo:hi]` of the source is evaluated through a checked
operation that yields `none` where Go would panic, and both loops are driven by
fuel, so that "returns a value" is a statement that is proved, not assumed.
-/

namespace TxtSanitize

/-- One byte of a Go `string` / `[]byte`. -/
abbrev Byte := UInt8

/-- The double-quote byte, written '"' in the source. -/
def dquote : Byte := 34

/-- The backslash byte, written '\\' in the source. -/
def backslash : Byte := 92

/-- Go's index expression `s[i]`: a panic (`none`) unless `0 ≤ i < len(s)`. -/
def byteAt (s : List Byte) (i : Int) : Option Byte :=
  if 0 ≤ i ∧ i < (s.length : Int) then s.get? i.toNat else none

/-- Go's slice expression `s[lo:hi]`: a panic (`none`) unless
`0 ≤ lo ≤ hi ≤ len(s)`.  (Go compares `hi` with `cap(s)`, which is at least
`len(s)`; the check made here is the stricter one.) -/
def slice (s : List Byte) (lo hi : Int) : Option (List Byte) :=
  if 0 ≤ lo ∧ lo ≤ hi ∧ hi ≤ (s.length : Int) then
    some ((s.take hi.toNat).drop lo.toNat)
  else none

/-- The library function `bytes.IndexByte(s, c)`: the index of the first
occurrence of `c` in `s`, or `-1` when `c` does not occur. -/
def IndexByte (s : List Byte) (c : Byte) : Int :=
  if c ∈ s then (s.indexOf c : Int) else -1

/-- The backward walk of lines 37-40:
`for j := ind - 1; j >= 0 && contents[j] == '\\'; j-- { escCt++ }`,
started at `j` with counter `escCt`; the result is the final `escCt`. -/
def escWalk (contents : List Byte) : Nat → Int → Nat → Option Nat
  | 0, _, _ => none
  | fuel + 1, j, escCt =>
    if 0 ≤ j then
      match byteAt contents j with
      | none => none
      | some b =>
        if b = backslash then escWalk contents fuel (j - 1) (escCt + 1)
        else some escCt
    else some escCt

/-- The variables the scan loop of lines 27-47 carries from one iteration to
the next: the cursor `ind`, the counter `escaped` and the builder `bldr`. -/
structure LoopState where
  ind : Int
  escaped : Nat
  bldr : List Byte
  deriving DecidableEq, Repr

/-- How one execution of the loop body ends: at its last statement (`next`,
after which the loop header runs `ind++`), or at the `break` of line 31. -/
inductive Flow where
  | next (s : LoopState)
  | brk (s : LoopState)
  deriving DecidableEq, Repr

/-- One execution of the loop body, lines 28-46, from state `s`. -/
def loopBody (contents : List Byte) (fuel : Nat) (s : LoopState) : Option Flow :=
  match slice contents s.ind contents.length with
  | none => none
  | some rest =>
    let tInd := IndexByte rest dquote
    if tInd = -1 then
      some (Flow.brk { s with bldr := s.bldr ++ rest })
    else
      match slice contents s.ind (s.ind + tInd) with
      | none => none
      | some seg =>
        let bldr := s.bldr ++ seg
        let ind := s.ind + tInd
        match escWalk contents fuel (ind - 1) 0 with
        | none => none
        | some escCt =>
          if escCt % 2 = 0 then
            some (Flow.next ⟨ind, s.escaped + 1, bldr ++ [backslash] ++ [dquote]⟩)
          else
            some (Flow.next ⟨ind, s.escaped, bldr ++ [dquote]⟩)

/-- The loop `for ind := 0; ind < len(contents); ind++ { ... }` of lines 27-47,
entered at its condition with state `s`.  The first argument bounds the number
of iterations, the second is handed to the backward walk. -/
def scanLoop (contents : List Byte) (fuel : Nat) : Nat → LoopState → Option LoopState
  | 0, _ => none
  | n + 1, s =>
    if s.ind < (contents.length : Int) then
      match loopBody contents fuel s with
      | none => none
      | some (Flow.brk s') => some s'
      | some (Flow.next s') => scanLoop contents fuel n { s' with ind := s'.ind + 1 }
    else some s

/-- Lines 17-20: whether the input is enclosed in double quotes. -/
def outerQuoted (input : List Byte) : Option Bool :=
  if 2 ≤ input.length then
    match byteAt input 0 with
    | none => none
    | some a =>
      if a = dquote then
        match byteAt input ((input.length : Int) - 1) with
        | none => none
        | some b => some (decide (b = dquote))
      else some false
  else some false

/-- Lines 55-64: the result assembled from the flag `quoted`, the counter
`escaped` and the contents of the builder. -/
def assemble (quoted : Bool) (escaped : Nat) (bldr : List Byte) : List Byte :=
  let out := [dquote]
  let out :=
    if quoted = true ∧ 0 < escaped ∧ escaped % 2 = 0 then
      out ++ [backslash, dquote] ++ bldr ++ [backslash, dquote]
    else
      out ++ bldr
  out ++ [dquote]

/-- The function `TXTSanitize` with checked indexing and fuel for its loops;
`none` stands for a panic or for fuel running out. -/
def TXTSanitizeFuel (fuel : Nat) (input : List Byte) : Option (List Byte) :=
  match outerQuoted input with
  | none => none
  | some quoted =>
    match (if quoted = true then slice input 1 ((input.length : Int) - 1) else some input) with
    | none => none
    | some contents =>
      match scanLoop contents fuel fuel ⟨0, 0, []⟩ with
      | none => none
      | some s => some (assemble quoted s.escaped s.bldr)

/-- The function `TXTSanitize`: the checked run with fuel `len(in) + 1`, which
`TXTSanitizeFuel_eq` shows to be enough for every input. -/
def TXTSanitize (input : List Byte) : List Byte :=
  (TXTSanitizeFuel (input.length + 1) input).getD []

/-! ## Byte-wise description of the scan -/

/-- Length of the maximal run of backslash bytes at the end of `l`. -/
def trailRun (l : List Byte) : Nat :=
  (l.reverse.takeWhile (fun b => decide (b = backslash))).length

/-- Length of the maximal run of backslash bytes immediately preceding
position `i` of `l`. -/
def escRun (l : List Byte) (i : Nat) : Nat := trailRun (l.take i)

/-- The text the scan produces for `l`, read one byte at a time, where `run` is
the length of the backslash run that immediately precedes `l`: a double quote
after a run of even length gets a backslash, every other byte is copied. -/
def escapeFrom : Nat → List Byte → List Byte
  | _, [] => []
  | run, b :: rest =>
    if b = dquote then
      (if run % 2 = 0 then [backslash, dquote] else [dquote]) ++ escapeFrom 0 rest
    else if b = backslash then b :: escapeFrom (run + 1) rest
    else b :: escapeFrom 0 rest

/-- The number of backslashes `escapeFrom` inserts. -/
def countFrom : Nat → List Byte → Nat
  | _, [] => 0
  | run, b :: rest =>
    if b = dquote then
      (if run % 2 = 0 then 1 else 0) + countFrom 0 rest
    else if b = backslash then countFrom (run + 1) rest
    else countFrom 0 rest

/-- The flag `quoted` of lines 17-20 as a pure predicate: length at least 2,
first and last byte a double quote. -/
def isQuoted (x : List Byte) : Bool :=
  decide (2 ≤ x.length) && (x.head? == some dquote) && (x.getLast? == some dquote)

/-- The slice `contents` the scan runs over (lines 21-23): the input without
its first and last byte when it is enclosed in quotes, else the input. -/
def innerContent (x : List Byte) : List Byte :=
  if isQuoted x = true then (x.take (x.length - 1)).drop 1 else x

/-- Length of the backslash run at the end of `l` when a run of length `run`
immediately precedes `l`. -/
def runAfter : Nat → List Byte → Nat
  | run, [] => run
  | run, b :: rest => if b = backslash then runAfter (run + 1) rest else runAfter 0 rest

/-- Whether a byte is neither the double quote nor the backslash. -/
def isPlain (b : Byte) : Bool := decide (b ≠ dquote ∧ b ≠ backslash)

/-! ## The reference description, worded as the specification words it -/

/-- The specification's `OuterQuoteFlag`: the text has length at least 2 and
its first and last bytes are both the double quote. -/
def specQuoted (x : List Byte) : Prop :=
  2 ≤ x.length ∧ x.head? = some dquote ∧ x.getLast? = some dquote

instance (x : List Byte) : Decidable (specQuoted x) := by
  unfold specQuoted; infer_instance

/-- The specification's `InnerContent`: the text without its first and last
byte when the flag holds, otherwise the text itself. -/
def specInner (x : List Byte) : List Byte :=
  if specQuoted x then (x.drop 1).dropLast else x

/-- Position `i` of `c` holds a double quote whose maximal preceding backslash
run inside `c` has even length. -/
def needsEscape (c : List Byte) (i : Nat) : Bool :=
  decide (c.get? i = some dquote ∧ escRun c i % 2 = 0)

/-- The specification's `P`: `c` with one backslash inserted immediately
before each double quote that `needsEscape` marks. -/
def specP (c : List Byte) : List Byte :=
  (List.range c.length).flatMap fun i =>
    if needsEscape c i = true then backslash :: (c.get? i).toList else (c.get? i).toList

/-- The specification's `E`: the number of insertions `specP` makes. -/
def specE (c : List Byte) : Nat :=
  ((List.range c.length).filter (needsEscape c)).length

/-- The reference result: `specP` of the inner content between two double
quotes, with one more escaped quote on each side when the text is enclosed in
quotes and `specE` is positive and even. -/
def specSanitize (x : List Byte) : List Byte :=
  if specQuoted x ∧ 0 < specE (specInner x) ∧ specE (specInner x) % 2 = 0 then
    [dquote] ++ [backslash, dquote] ++ specP (specInner x) ++ [backslash, dquote] ++ [dquote]
  else
    [dquote] ++ specP (specInner x) ++ [dquote]

/-- The value of the counter `escaped` when `TXTSanitize` leaves its scan
loop (lines 27-47): the number of double quotes it newly escapes. -/
def escapedCount (x : List Byte) : Nat :=
  match scanLoop (innerContent x) (x.length + 1) (x.length + 1) ⟨0, 0, []⟩ with
  | some s => s.escaped
  | none => 0

/-- The input of the test "quoted escaped slash with raw double quote":
`"i don't know what i'm doing \\" right there"`. -/
def testRawQuote : List Byte :=
  [dquote, 105, 32, 100, 111, 110, 39, 116, 32, 107, 110, 111, 119, 32, 119, 104, 97, 116, 32,
    105, 39, 109, 32, 100, 111, 105, 110, 103, 32, backslash, backslash, dquote, 32, 114, 105,
    103, 104, 116, 32, 116, 104, 101, 114, 101, dquote]

/-! ## Basic facts -/

theorem dquote_ne_backslash : dquote ≠ backslash := by decide

theorem trailRun_nil : trailRun [] = 0 := rfl

theorem trailRun_concat (l : List Byte) (b : Byte) :
    trailRun (l ++ [b]) = if b = backslash then trailRun l + 1 else 0 := by
  unfold trailRun
  simp [List.takeWhile_cons]
  split <;> simp_all

theorem trailRun_concat_backslash (l : List Byte) :
    trailRun (l ++ [backslash]) = trailRun l + 1 := by
  rw [trailRun_concat]; simp

theorem trailRun_concat_other (l : List Byte) (b : Byte) (h : b ≠ backslash) :
    trailRun (l ++ [b]) = 0 := by
  rw [trailRun_concat]; simp [h]

theorem slice_suffix (pre suf : List Byte) :
    slice (pre ++ suf) (pre.length : Int) ((pre ++ suf).length : Nat) = some suf := by
  unfold slice
  have h : (0 : Int) ≤ pre.length ∧ (pre.length : Int) ≤ ((pre ++ suf).length : Nat)
      ∧ (((pre ++ suf).length : Nat) : Int) ≤ ((pre ++ suf).length : Nat) := by
    simp
  rw [if_pos h]
  have e : ((((pre ++ suf).length : Nat) : Int)).toNat = (pre ++ suf).length := by omega
  rw [e, List.take_length, Int.toNat_ofNat, List.drop_left]

theorem slice_segment (pre seg rest : List Byte) :
    slice (pre ++ (seg ++ rest)) (pre.length : Int) ((pre.length : Int) + (seg.length : Int))
      = some seg := by
  unfold slice
  have h : (0 : Int) ≤ pre.length ∧ (pre.length : Int) ≤ (pre.length : Int) + (seg.length : Int)
      ∧ (pre.length : Int) + (seg.length : Int) ≤ ((pre ++ (seg ++ rest)).length : Nat) := by
    simp only [List.length_append]; push_cast; omega
  rw [if_pos h]
  have e : ((pre.length : Int) + (seg.length : Int)).toNat = pre.length + seg.length := by omega
  rw [e, ← List.append_assoc, ← List.length_append, List.take_left]
  simp

theorem IndexByte_not_mem (s : List Byte) (c : Byte) (h : c ∉ s) : IndexByte s c = -1 := by
  simp [IndexByte, h]

theorem IndexByte_first (seg rest : List Byte) (c : Byte) (h : c ∉ seg) :
    IndexByte (seg ++ c :: rest) c = (seg.length : Int) := by
  have hm : c ∈ seg ++ c :: rest := by simp
  unfold IndexByte
  rw [if_pos hm]
  congr 1
  induction seg with
  | nil => simp
  | cons a t ih =>
    have ha : a ≠ c := fun e => h (by simp [e])
    have ht : c ∉ t := fun e => h (by simp [e])
    simp only [List.cons_append, List.length_cons]
    rw [List.indexOf_cons_ne _ ha, ih ht (by simp)]

theorem exists_first_split (s : List Byte) (c : Byte) (h : c ∈ s) :
    ∃ seg rest, s = seg ++ c :: rest ∧ c ∉ seg := by
  induction s with
  | nil => simp at h
  | cons a t ih =>
    by_cases hac : a = c
    · exact ⟨[], t, by simp [hac], by simp⟩
    · have ht : c ∈ t := by
        rcases List.mem_cons.mp h with e | e
        · exact absurd e.symm hac
        · exact e
      obtain ⟨seg, rest, e, hn⟩ := ih ht
      refine ⟨a :: seg, rest, by simp [e], ?_⟩
      intro hm
      rcases List.mem_cons.mp hm with e' | e'
      · exact hac e'.symm
      · exact hn e'

theorem byteAt_concat (pre suf : List Byte) (b : Byte) :
    byteAt ((pre ++ [b]) ++ suf) (((pre ++ [b]).length : Nat) - 1 : Int) = some b := by
  unfold byteAt
  have h : (0 : Int) ≤ (((pre ++ [b]).length : Nat) : Int) - 1
      ∧ (((pre ++ [b]).length : Nat) : Int) - 1 < (((pre ++ [b]) ++ suf).length : Nat) := by
    simp only [List.length_append, List.length_singleton]; push_cast; omega
  rw [if_pos h]
  have e : ((((pre ++ [b]).length : Nat) : Int) - 1).toNat = pre.length := by
    simp only [List.length_append, List.length_singleton]; push_cast; omega
  rw [e, List.append_assoc, List.get?_eq_getElem?,
    List.getElem?_append_right (Nat.le_refl _)]
  simp

/-- The backward walk started just before position `pre.length` counts the
backslash run at the end of `pre`. -/
theorem escWalk_eq (pre : List Byte) :
    ∀ (suf : List Byte) (fuel escCt : Nat), pre.length < fuel →
      escWalk (pre ++ suf) fuel ((pre.length : Int) - 1) escCt = some (escCt + trailRun pre) := by
  induction pre using List.reverseRecOn with
  | nil =>
    intro suf fuel escCt hf
    obtain ⟨f, rfl⟩ : ∃ f, fuel = f + 1 := ⟨fuel - 1, by simp at hf; omega⟩
    simp [escWalk, trailRun_nil]
  | append_singleton l b ih =>
    intro suf fuel escCt hf
    obtain ⟨f, rfl⟩ : ∃ f, fuel = f + 1 := ⟨fuel - 1, by omega⟩
    have hlen : l.length < f := by simp at hf; omega
    have hj : (0 : Int) ≤ (((l ++ [b]).length : Nat) : Int) - 1 := by
      simp only [List.length_append, List.length_singleton]; push_cast; omega
    unfold escWalk
    rw [if_pos hj, byteAt_concat]
    simp only
    by_cases hb : b = backslash
    · rw [if_pos hb]
      have e : (((l ++ [b]).length : Nat) : Int) - 1 - 1 = (l.length : Int) - 1 := by
        simp only [List.length_append, List.length_singleton]; push_cast; omega
      rw [e, List.append_assoc, ih ([b] ++ suf) f (escCt + 1) hlen, hb,
        trailRun_concat_backslash]
      congr 1; omega
    · rw [if_neg hb, trailRun_concat_other _ _ hb]; rfl

/-! ## The scan loop computes `escapeFrom` and `countFrom` -/

theorem escapeFrom_no_quote (seg : List Byte) (h : dquote ∉ seg) :
    ∀ (pre tl : List Byte),
      escapeFrom (trailRun pre) (seg ++ tl) = seg ++ escapeFrom (trailRun (pre ++ seg)) tl := by
  induction seg with
  | nil => intro pre tl; simp
  | cons a t ih =>
    intro pre tl
    have ha : a ≠ dquote := fun e => h (by simp [e])
    have ht : dquote ∉ t := fun e => h (by simp [e])
    have hassoc : pre ++ a :: t = (pre ++ [a]) ++ t := by simp
    have hstep := ih ht (pre ++ [a]) tl
    rw [hassoc, List.cons_append]
    by_cases hb : a = backslash
    · subst hb
      rw [trailRun_concat_backslash] at hstep
      simp [escapeFrom, ha, hstep]
    · rw [trailRun_concat_other _ _ hb] at hstep
      simp [escapeFrom, ha, hb, hstep]

theorem countFrom_no_quote (seg : List Byte) (h : dquote ∉ seg) :
    ∀ (pre tl : List Byte),
      countFrom (trailRun pre) (seg ++ tl) = countFrom (trailRun (pre ++ seg)) tl := by
  induction seg with
  | nil => intro pre tl; simp
  | cons a t ih =>
    intro pre tl
    have ha : a ≠ dquote := fun e => h (by simp [e])
    have ht : dquote ∉ t := fun e => h (by simp [e])
    have hassoc : pre ++ a :: t = (pre ++ [a]) ++ t := by simp
    have hstep := ih ht (pre ++ [a]) tl
    rw [hassoc, List.cons_append]
    by_cases hb : a = backslash
    · subst hb
      rw [trailRun_concat_backslash] at hstep
      simp [countFrom, ha, hstep]
    · rw [trailRun_concat_other _ _ hb] at hstep
      simp [countFrom, ha, hb, hstep]

theorem escapeFrom_quote_free (seg : List Byte) (h : dquote ∉ seg) :
    ∀ run : Nat, escapeFrom run seg = seg := by
  induction seg with
  | nil => intro run; rfl
  | cons a t ih =>
    intro run
    have ha : a ≠ dquote := fun e => h (by simp [e])
    have ht : dquote ∉ t := fun e => h (by simp [e])
    by_cases hb : a = backslash
    · subst hb
      simp [escapeFrom, ha, ih ht]
    · simp [escapeFrom, ha, hb, ih ht]

theorem countFrom_quote_free (seg : List Byte) (h : dquote ∉ seg) :
    ∀ run : Nat, countFrom run seg = 0 := by
  induction seg with
  | nil => intro run; rfl
  | cons a t ih =>
    intro run
    have ha : a ≠ dquote := fun e => h (by simp [e])
    have ht : dquote ∉ t := fun e => h (by simp [e])
    by_cases hb : a = backslash
    · subst hb
      simp [countFrom, ha, ih ht]
    · simp [countFrom, ha, hb, ih ht]

/-- The loop body when no double quote is left: the rest is copied and the
loop is left through `break`. -/
theorem loopBody_brk (pre suf : List Byte) (fuel e : Nat) (b : List Byte)
    (h : dquote ∉ suf) :
    loopBody (pre ++ suf) fuel ⟨(pre.length : Int), e, b⟩
      = some (Flow.brk ⟨(pre.length : Int), e, b ++ suf⟩) := by
  unfold loopBody
  simp only [slice_suffix, IndexByte_not_mem suf dquote h, if_true]

/-- The loop body when the next double quote is `seg.length` bytes ahead. -/
theorem loopBody_next (pre seg rest : List Byte) (fuel e : Nat) (b : List Byte)
    (h : dquote ∉ seg) (hf : (pre ++ (seg ++ dquote :: rest)).length < fuel) :
    loopBody (pre ++ (seg ++ dquote :: rest)) fuel ⟨(pre.length : Int), e, b⟩
      = some (Flow.next ⟨(pre.length : Int) + (seg.length : Int),
          e + (if trailRun (pre ++ seg) % 2 = 0 then 1 else 0),
          b ++ seg ++ (if trailRun (pre ++ seg) % 2 = 0 then [backslash, dquote] else [dquote])⟩) := by
  unfold loopBody
  have hne : ((seg.length : Nat) : Int) ≠ -1 := by omega
  simp only [slice_suffix, IndexByte_first seg rest dquote h, if_neg hne, slice_segment]
  have hw := escWalk_eq (pre ++ seg) (dquote :: rest) fuel 0
    (by simp only [List.length_append, List.length_cons] at hf ⊢; omega)
  have e1 : (((pre ++ seg).length : Nat) : Int) = (pre.length : Int) + (seg.length : Int) := by
    simp
  rw [List.append_assoc, e1] at hw
  rw [hw]
  simp only [Nat.zero_add]
  by_cases hp : trailRun (pre ++ seg) % 2 = 0
  · simp [hp]
  · simp [hp]

/-- With enough fuel the scan loop, entered at position `pre.length`, returns
the counter and the builder extended by what `countFrom` and `escapeFrom` give
for the part of the contents not yet scanned. -/
theorem scanLoop_eq (n : Nat) :
    ∀ (pre suf : List Byte) (fuel e : Nat) (b : List Byte),
      (pre ++ suf).length < fuel → suf.length < n →
      ∃ i, scanLoop (pre ++ suf) fuel n ⟨(pre.length : Int), e, b⟩
        = some ⟨i, e + countFrom (trailRun pre) suf, b ++ escapeFrom (trailRun pre) suf⟩ := by
  induction n with
  | zero => intro pre suf fuel e b _ hn; omega
  | succ n ih =>
    intro pre suf fuel e b hf hn
    unfold scanLoop
    by_cases hs : suf = []
    · subst hs
      refine ⟨(pre.length : Int), ?_⟩
      simp [escapeFrom, countFrom]
    · have hlt : (pre.length : Int) < (((pre ++ suf).length : Nat) : Int) := by
        have : 0 < suf.length := List.length_pos.mpr hs
        simp only [List.length_append]; push_cast; omega
      simp only [hlt, if_true]
      by_cases hq : dquote ∈ suf
      · obtain ⟨seg, rest, rfl, hseg⟩ := exists_first_split suf dquote hq
        rw [loopBody_next pre seg rest fuel e b hseg hf]
        simp only
        have e1 : (pre.length : Int) + (seg.length : Int) + 1
            = (((pre ++ seg ++ [dquote]).length : Nat) : Int) := by
          simp only [List.length_append, List.length_singleton]; push_cast; omega
        have e2 : pre ++ (seg ++ dquote :: rest) = (pre ++ seg ++ [dquote]) ++ rest := by simp
        rw [e1, e2]
        obtain ⟨i, hi⟩ := ih (pre ++ seg ++ [dquote]) rest fuel
          (e + (if trailRun (pre ++ seg) % 2 = 0 then 1 else 0))
          (b ++ seg ++ (if trailRun (pre ++ seg) % 2 = 0 then [backslash, dquote] else [dquote]))
          (by rw [← e2]; exact hf)
          (by simp only [List.length_append, List.length_cons] at hn; omega)
        refine ⟨i, ?_⟩
        rw [hi, trailRun_concat_other _ _ dquote_ne_backslash,
          escapeFrom_no_quote seg hseg, countFrom_no_quote seg hseg]
        by_cases hp : trailRun (pre ++ seg) % 2 = 0
        · simp [hp, escapeFrom, countFrom, Nat.add_assoc]
        · simp [hp, escapeFrom, countFrom]
      · refine ⟨(pre.length : Int), ?_⟩
        rw [loopBody_brk pre suf fuel e b hq, escapeFrom_quote_free suf hq,
          countFrom_quote_free suf hq]
        rfl

/-! ## The whole function -/

theorem byteAt_zero (x : List Byte) (h : 2 ≤ x.length) : byteAt x 0 = x.head? := by
  unfold byteAt
  have hc : (0 : Int) ≤ 0 ∧ (0 : Int) < (x.length : Int) := by omega
  rw [if_pos hc]
  cases x with
  | nil => rfl
  | cons a t => rfl

theorem byteAt_last (x : List Byte) (h : 2 ≤ x.length) :
    byteAt x ((x.length : Int) - 1) = x.getLast? := by
  unfold byteAt
  have hc : (0 : Int) ≤ (x.length : Int) - 1 ∧ (x.length : Int) - 1 < (x.length : Int) := by
    omega
  have e : ((x.length : Int) - 1).toNat = x.length - 1 := by omega
  rw [if_pos hc, e, List.getLast?_eq_getElem?, List.get?_eq_getElem?]

theorem outerQuoted_eq (x : List Byte) : outerQuoted x = some (isQuoted x) := by
  unfold outerQuoted isQuoted
  by_cases h : 2 ≤ x.length
  · rw [if_pos h, byteAt_zero x h, byteAt_last x h]
    cases hh : x.head? with
    | none =>
      cases x with
      | nil => simp at h
      | cons a t => simp at hh
    | some a =>
      cases hl : x.getLast? with
      | none =>
        cases x with
        | nil => simp at h
        | cons a t => simp [List.getLast?_eq_none_iff] at hl
      | some b =>
        by_cases ha : a = dquote
        · by_cases hb : b = dquote <;> simp [h, ha, hb]
        · simp [h, ha]
  · simp [h]

theorem slice_inner (x : List Byte) (h : 2 ≤ x.length) :
    slice x 1 ((x.length : Int) - 1) = some ((x.take (x.length - 1)).drop 1) := by
  unfold slice
  have hc : (0 : Int) ≤ 1 ∧ (1 : Int) ≤ (x.length : Int) - 1
      ∧ (x.length : Int) - 1 ≤ (x.length : Int) := by omega
  have e : ((x.length : Int) - 1).toNat = x.length - 1 := by omega
  rw [if_pos hc, e]
  rfl

theorem isQuoted_length (x : List Byte) (h : isQuoted x = true) : 2 ≤ x.length := by
  unfold isQuoted at h
  simp only [Bool.and_eq_true, decide_eq_true_eq] at h
  exact h.1.1

theorem innerContent_length_le (x : List Byte) : (innerContent x).length ≤ x.length := by
  unfold innerContent
  split
  · simp only [List.length_drop, List.length_take]; omega
  · exact Nat.le_refl _

/-- With more fuel than the input has bytes, the checked run returns, and its
result is the assembly of the byte-wise scan of the inner content. -/
theorem TXTSanitizeFuel_eq (fuel : Nat) (x : List Byte) (hf : x.length < fuel) :
    TXTSanitizeFuel fuel x
      = some (assemble (isQuoted x) (countFrom 0 (innerContent x))
          (escapeFrom 0 (innerContent x))) := by
  have hc : (if isQuoted x = true then slice x 1 ((x.length : Int) - 1) else some x)
      = some (innerContent x) := by
    unfold innerContent
    by_cases hq : isQuoted x = true
    · rw [if_pos hq, if_pos hq, slice_inner x (isQuoted_length x hq)]
    · rw [if_neg hq, if_neg hq]
  have hlen := innerContent_length_le x
  obtain ⟨i, hi⟩ := scanLoop_eq fuel [] (innerContent x) fuel 0 []
    (by simp only [List.nil_append]; omega) (by omega)
  simp only [List.nil_append, List.length_nil, Nat.zero_add, trailRun_nil] at hi
  unfold TXTSanitizeFuel
  simp only [outerQuoted_eq, hc]
  have hz : ((0 : Nat) : Int) = 0 := rfl
  rw [hz] at hi
  rw [hi]

theorem TXTSanitize_eq (x : List Byte) :
    TXTSanitize x
      = assemble (isQuoted x) (countFrom 0 (innerContent x)) (escapeFrom 0 (innerContent x)) := by
  unfold TXTSanitize
  rw [TXTSanitizeFuel_eq _ x (Nat.lt_succ_self _)]
  rfl

theorem assemble_plain (quoted : Bool) (escaped : Nat) (bldr : List Byte)
    (h : ¬ (quoted = true ∧ 0 < escaped ∧ escaped % 2 = 0)) :
    assemble quoted escaped bldr = dquote :: (bldr ++ [dquote]) := by
  unfold assemble
  simp only [if_neg h]
  rfl

theorem assemble_rewrap (quoted : Bool) (escaped : Nat) (bldr : List Byte)
    (h : quoted = true ∧ 0 < escaped ∧ escaped % 2 = 0) :
    assemble quoted escaped bldr
      = dquote :: (([backslash, dquote] ++ bldr ++ [backslash]) ++ [dquote]) ++ [dquote] := by
  unfold assemble
  simp only [if_pos h]
  simp

theorem assemble_shape (quoted : Bool) (escaped : Nat) (bldr : List Byte) :
    ∃ mid, assemble quoted escaped bldr = dquote :: (mid ++ [dquote]) := by
  by_cases h : quoted = true ∧ 0 < escaped ∧ escaped % 2 = 0
  · exact ⟨[backslash, dquote] ++ bldr ++ [backslash, dquote], by
      rw [assemble_rewrap _ _ _ h]; simp⟩
  · exact ⟨bldr, assemble_plain _ _ _ h⟩

theorem isQuoted_false_of_head (x : List Byte) (h : x.head? ≠ some dquote) :
    isQuoted x = false := by
  unfold isQuoted
  simp [h]

theorem isQuoted_false_of_last (x : List Byte) (h : x.getLast? ≠ some dquote) :
    isQuoted x = false := by
  unfold isQuoted
  simp [h]

theorem head?_mem (x : List Byte) (a : Byte) (h : x.head? = some a) : a ∈ x := by
  cases x with
  | nil => simp at h
  | cons b t => simp at h; simp [h]

/-- An input that is not enclosed in quotes is scanned whole and only wrapped
in one pair of quotes. -/
theorem TXTSanitize_unquoted (x : List Byte) (h : isQuoted x = false) :
    TXTSanitize x = dquote :: (escapeFrom 0 x ++ [dquote]) := by
  rw [TXTSanitize_eq, assemble_plain _ _ _ (by simp [h])]
  unfold innerContent
  simp [h]

theorem trailRun_eq_zero (u : List Byte) (h : u.getLast? ≠ some backslash) :
    trailRun u = 0 := by
  rcases List.eq_nil_or_concat u with rfl | ⟨l, b, rfl⟩
  · rfl
  · rw [List.concat_eq_append] at h ⊢
    rw [List.getLast?_concat] at h
    exact trailRun_concat_other l b (fun e => h (by rw [e]))

theorem trailRun_append_replicate (pre : List Byte) (n : Nat) :
    trailRun (pre ++ List.replicate n backslash) = trailRun pre + n := by
  induction n with
  | zero => simp
  | succ n ih =>
    rw [List.replicate_succ', ← List.append_assoc, trailRun_concat_backslash, ih]
    omega

theorem escapeFrom_zero_segment (seg tl : List Byte) (h : dquote ∉ seg) :
    escapeFrom 0 (seg ++ tl) = seg ++ escapeFrom (trailRun seg) tl := by
  have := escapeFrom_no_quote seg h [] tl
  simpa [trailRun_nil] using this

theorem countFrom_zero_segment (seg tl : List Byte) (h : dquote ∉ seg) :
    countFrom 0 (seg ++ tl) = countFrom (trailRun seg) tl := by
  have := countFrom_no_quote seg h [] tl
  simpa [trailRun_nil] using this

theorem isQuoted_wrap (c : List Byte) : isQuoted (dquote :: (c ++ [dquote])) = true := by
  unfold isQuoted
  rw [← List.cons_append, List.getLast?_concat]
  simp

theorem innerContent_wrap (c : List Byte) : innerContent (dquote :: (c ++ [dquote])) = c := by
  unfold innerContent
  rw [if_pos (isQuoted_wrap c)]
  simp

/-- A string of length at least 2 whose first and last bytes are double quotes
is its inner part between two double quotes. -/
theorem quoted_decomp (x : List Byte) (h2 : 2 ≤ x.length) (hf : x.head? = some dquote)
    (hl : x.getLast? = some dquote) : x = dquote :: ((x.drop 1).dropLast ++ [dquote]) := by
  cases x with
  | nil => simp at h2
  | cons a t =>
    simp only [List.head?_cons, Option.some.injEq] at hf
    subst hf
    rcases List.eq_nil_or_concat t with rfl | ⟨l, b, rfl⟩
    · simp at h2
    · rw [List.concat_eq_append] at hl ⊢
      rw [← List.cons_append, List.getLast?_concat, Option.some.injEq] at hl
      subst hl
      simp

/-- Where every double quote already follows a backslash run of odd length the
byte-wise scan changes nothing and inserts nothing. -/
theorem escapeFrom_fixed (suf : List Byte) :
    ∀ pre : List Byte,
      (∀ i, i < suf.length → suf.get? i = some dquote → trailRun (pre ++ suf.take i) % 2 = 1) →
      escapeFrom (trailRun pre) suf = suf ∧ countFrom (trailRun pre) suf = 0 := by
  induction suf with
  | nil => intro pre _; exact ⟨rfl, rfl⟩
  | cons a t ih =>
    intro pre h
    have hstep : ∀ i, i < t.length → t.get? i = some dquote →
        trailRun ((pre ++ [a]) ++ t.take i) % 2 = 1 := by
      intro i hi hq
      have := h (i + 1) (by simp; omega) (by simpa using hq)
      simpa using this
    obtain ⟨ih1, ih2⟩ := ih (pre ++ [a]) hstep
    by_cases ha : a = dquote
    · subst ha
      have h0 := h 0 (by simp) (by simp)
      simp only [List.take_zero, List.append_nil] at h0
      rw [trailRun_concat_other _ _ dquote_ne_backslash] at ih1 ih2
      have hne : ¬ trailRun pre % 2 = 0 := by omega
      simp [escapeFrom, countFrom, hne, ih1, ih2]
    · by_cases hb : a = backslash
      · subst hb
        rw [trailRun_concat_backslash] at ih1 ih2
        simp [escapeFrom, countFrom, ha, ih1, ih2]
      · rw [trailRun_concat_other _ _ hb] at ih1 ih2
        simp [escapeFrom, countFrom, ha, hb, ih1, ih2]

theorem isQuoted_count (x : List Byte) (h : isQuoted x = true) : 2 ≤ x.count dquote := by
  have h' := h
  unfold isQuoted at h'
  simp only [Bool.and_eq_true, decide_eq_true_eq, beq_iff_eq] at h'
  rw [quoted_decomp x h'.1.1 h'.1.2 h'.2]
  simp only [List.count_cons_self, List.count_append, List.count_nil]
  omega

theorem head?_append_ne (u t : List Byte) (hu : u ≠ []) (h : dquote ∉ u) :
    (u ++ t).head? ≠ some dquote := by
  cases u with
  | nil => exact absurd rfl hu
  | cons a r =>
    intro e
    simp only [List.cons_append, List.head?_cons, Option.some.injEq] at e
    exact h (by simp [e])

theorem getLast?_append_ne (t w : List Byte) (hw : w ≠ []) (h : dquote ∉ w) :
    (t ++ w).getLast? ≠ some dquote := by
  rcases List.eq_nil_or_concat w with rfl | ⟨l, b, rfl⟩
  · exact absurd rfl hw
  · rw [List.concat_eq_append] at h ⊢
    rw [← List.append_assoc, List.getLast?_concat]
    intro e
    simp only [Option.some.injEq] at e
    exact h (by simp [e])

/-- The scan of a text with exactly two double quotes, neither of them after a
backslash: both get a backslash. -/
theorem escapeFrom_two (u v w : List Byte) (hu : dquote ∉ u) (hv : dquote ∉ v)
    (hw : dquote ∉ w) (hu' : u.getLast? ≠ some backslash)
    (hv' : v.getLast? ≠ some backslash) :
    escapeFrom 0 (u ++ dquote :: (v ++ dquote :: w))
        = u ++ backslash :: dquote :: (v ++ backslash :: dquote :: w)
      ∧ countFrom 0 (u ++ dquote :: (v ++ dquote :: w)) = 2 := by
  rw [escapeFrom_zero_segment u _ hu, countFrom_zero_segment u _ hu, trailRun_eq_zero u hu']
  simp only [escapeFrom, countFrom, if_true, Nat.zero_mod]
  rw [escapeFrom_zero_segment v _ hv, countFrom_zero_segment v _ hv, trailRun_eq_zero v hv']
  simp only [escapeFrom, countFrom, if_true, Nat.zero_mod]
  rw [escapeFrom_quote_free w hw, countFrom_quote_free w hw]
  simp

/-- The backslash run at the end of the scanned text is the one at the end of
the text that was scanned. -/
theorem trailRun_escapeFrom (suf : List Byte) :
    ∀ pre b : List Byte, trailRun b = trailRun pre →
      trailRun (b ++ escapeFrom (trailRun pre) suf) = trailRun (pre ++ suf) := by
  induction suf with
  | nil => intro pre b h; simpa [escapeFrom] using h
  | cons a t ih =>
    intro pre b h
    have hassoc : pre ++ a :: t = (pre ++ [a]) ++ t := by simp
    rw [hassoc]
    by_cases ha : a = dquote
    · subst ha
      have hz := trailRun_concat_other pre dquote dquote_ne_backslash
      by_cases hp : trailRun pre % 2 = 0
      · have step := ih (pre ++ [dquote]) (b ++ [backslash, dquote]) (by
          rw [hz]
          have : b ++ [backslash, dquote] = (b ++ [backslash]) ++ [dquote] := by simp
          rw [this, trailRun_concat_other _ _ dquote_ne_backslash])
        rw [hz] at step
        rw [← step]
        simp [escapeFrom, hp]
      · have step := ih (pre ++ [dquote]) (b ++ [dquote]) (by
          rw [hz, trailRun_concat_other _ _ dquote_ne_backslash])
        rw [hz] at step
        rw [← step]
        simp [escapeFrom, hp]
    · by_cases hb : a = backslash
      · subst hb
        have step := ih (pre ++ [backslash]) (b ++ [backslash]) (by
          rw [trailRun_concat_backslash, trailRun_concat_backslash, h])
        rw [trailRun_concat_backslash] at step
        rw [← step]
        simp [escapeFrom, ha]
      · have step := ih (pre ++ [a]) (b ++ [a]) (by
          rw [trailRun_concat_other _ _ hb, trailRun_concat_other _ _ hb])
        rw [trailRun_concat_other _ _ hb] at step
        rw [← step]
        simp [escapeFrom, ha, hb]

theorem getLast_TXTSanitize (x : List Byte) :
    (TXTSanitize x).getLast? = some dquote := by
  rw [TXTSanitize_eq]
  obtain ⟨mid, hm⟩ := assemble_shape (isQuoted x) (countFrom 0 (innerContent x))
    (escapeFrom 0 (innerContent x))
  rw [hm, ← List.cons_append, List.getLast?_concat]

/-! ## The claims -/

/-- C1 (idempotence) fails on the code: for the input `"a"b"\"` the first pass
re-wraps and returns `"\"a\"b\"\\""`, and a second pass over that result
escapes its last inner quote once more and returns `"\"a\"b\"\\\""`. -/
theorem TXTSanitize_twice_differs :
    TXTSanitize [dquote, 97, dquote, 98, dquote, backslash, dquote]
        = [dquote, backslash, dquote, 97, backslash, dquote, 98, backslash, dquote,
            backslash, backslash, dquote, dquote]
      ∧ TXTSanitize (TXTSanitize [dquote, 97, dquote, 98, dquote, backslash, dquote])
        = [dquote, backslash, dquote, 97, backslash, dquote, 98, backslash, dquote,
            backslash, backslash, backslash, dquote, dquote]
      ∧ TXTSanitize (TXTSanitize [dquote, 97, dquote, 98, dquote, backslash, dquote])
        ≠ TXTSanitize [dquote, 97, dquote, 98, dquote, backslash, dquote] := by
  decide

/-- C2: for every byte string `x`, `TXTSanitize x` has at least two bytes, and
its first and its last byte are double quotes. -/
theorem TXTSanitize_always_quoted (x : List Byte) :
    2 ≤ (TXTSanitize x).length
      ∧ (TXTSanitize x).head? = some dquote
      ∧ (TXTSanitize x).getLast? = some dquote := by
  rw [TXTSanitize_eq]
  obtain ⟨mid, hm⟩ := assemble_shape (isQuoted x) (countFrom 0 (innerContent x))
    (escapeFrom 0 (innerContent x))
  rw [hm]
  refine ⟨by simp, by simp, ?_⟩
  rw [← List.cons_append, List.getLast?_concat]

/-- C3 (every embedded quote of the output is preceded by a backslash run of
odd length) fails on the code: in `TXTSanitize "a"b"\"`, thirteen bytes long,
the byte at index 11 is a double quote strictly inside the output and the
backslash run before it has length 2. -/
theorem TXTSanitize_embedded_quote_unescaped :
    (TXTSanitize [dquote, 97, dquote, 98, dquote, backslash, dquote]).length = 13
      ∧ (TXTSanitize [dquote, 97, dquote, 98, dquote, backslash, dquote]).get? 11 = some dquote
      ∧ escRun (TXTSanitize [dquote, 97, dquote, 98, dquote, backslash, dquote]) 11 = 2 := by
  decide

/-- From a cursor inside the contents the loop body does not panic, and when
it reaches its last statement the cursor it leaves is at a double quote of the
contents, at or after the position it started from. -/
theorem loopBody_progress (contents : List Byte) (fuel : Nat) (s : LoopState)
    (h0 : 0 ≤ s.ind) (h1 : s.ind < (contents.length : Int)) (hf : contents.length < fuel) :
    ∃ f, loopBody contents fuel s = some f ∧
      ∀ s', f = Flow.next s' → s.ind ≤ s'.ind ∧ s'.ind < (contents.length : Int) := by
  obtain ⟨ind, escaped, bldr⟩ := s
  simp only at h0 h1
  have hk : ind.toNat ≤ contents.length := by omega
  have hsplit : contents = contents.take ind.toNat ++ contents.drop ind.toNat :=
    (List.take_append_drop _ _).symm
  have hpre : ((contents.take ind.toNat).length : Int) = ind := by
    rw [List.length_take, Nat.min_eq_left hk]; omega
  generalize hp : contents.take ind.toNat = pre at hsplit hpre
  generalize hsuf : contents.drop ind.toNat = suf at hsplit
  subst hsplit
  rw [← hpre]
  by_cases hq : dquote ∈ suf
  · obtain ⟨seg, rest, rfl, hseg⟩ := exists_first_split suf dquote hq
    refine ⟨_, loopBody_next pre seg rest fuel escaped bldr hseg hf, ?_⟩
    intro s' hs'
    injection hs' with hs'
    subst hs'
    simp only [List.length_append, List.length_cons]
    push_cast
    omega
  · refine ⟨_, loopBody_brk pre suf fuel escaped bldr hq, ?_⟩
    intro s' hs'
    cases hs'

/-- C4: `TXTSanitize` is total.  With more fuel than the input has bytes the
checked run returns a value (no index or slice expression is out of bounds and
both loops end); and from any cursor inside the contents one execution of the
loop body does not panic and, when the loop goes on, the cursor after `ind++`
is strictly greater than before and at most `len(contents)`. -/
theorem TXTSanitize_total (x : List Byte) :
    (∀ fuel : Nat, x.length < fuel → TXTSanitizeFuel fuel x = some (TXTSanitize x))
      ∧ (∀ (contents : List Byte) (fuel : Nat) (s : LoopState),
          0 ≤ s.ind → s.ind < (contents.length : Int) → contents.length < fuel →
          ∃ f, loopBody contents fuel s = some f ∧
            ∀ s', f = Flow.next s' →
              s.ind < s'.ind + 1 ∧ s'.ind + 1 ≤ (contents.length : Int)) := by
  constructor
  · intro fuel hf
    rw [TXTSanitizeFuel_eq fuel x hf, TXTSanitize_eq]
  · intro contents fuel s h0 h1 hf
    obtain ⟨f, hb, hn⟩ := loopBody_progress contents fuel s h0 h1 hf
    refine ⟨f, hb, ?_⟩
    intro s' hs'
    have := hn s' hs'
    omega

theorem TXTSanitize_total_witness :
    TXTSanitizeFuel 4 [97, dquote, 98] = some (TXTSanitize [97, dquote, 98])
      ∧ TXTSanitize [97, dquote, 98] = [dquote, 97, backslash, dquote, 98, dquote]
      ∧ ∃ f, loopBody [97, dquote, 98] 4 ⟨0, 0, []⟩ = some f ∧
          ∀ s', f = Flow.next s' → (0 : Int) < s'.ind + 1 ∧ s'.ind + 1 ≤ 3 :=
  ⟨(TXTSanitize_total [97, dquote, 98]).1 4 (by decide), by decide,
    (TXTSanitize_total [97, dquote, 98]).2 [97, dquote, 98] 4 ⟨0, 0, []⟩
      (by decide) (by decide) (by decide)⟩

/-- C5: an input without a double quote is only wrapped: the result is one
double quote, the input unchanged, one double quote; in particular the empty
input gives the two-byte string of two double quotes. -/
theorem TXTSanitize_quote_free :
    (∀ x : List Byte, dquote ∉ x → TXTSanitize x = [dquote] ++ x ++ [dquote])
      ∧ TXTSanitize [] = [dquote, dquote] := by
  have key : ∀ x : List Byte, dquote ∉ x → TXTSanitize x = [dquote] ++ x ++ [dquote] := by
    intro x hx
    have hq : isQuoted x = false :=
      isQuoted_false_of_head x (fun e => hx (head?_mem x dquote e))
    rw [TXTSanitize_unquoted x hq, escapeFrom_quote_free x hx]
    simp
  exact ⟨key, key [] (by simp)⟩

theorem TXTSanitize_quote_free_witness :
    TXTSanitize [97, backslash, backslash, 195, 167, backslash]
      = [dquote] ++ [97, backslash, backslash, 195, 167, backslash] ++ [dquote] :=
  TXTSanitize_quote_free.1 [97, backslash, backslash, 195, 167, backslash] (by decide)

/-- C6: an already sanitized input is returned unchanged: when `x` has length
at least 2, its first and last bytes are double quotes, and every double quote
of its inner content (`x` without its first and last byte) is preceded by a
backslash run of odd length, then `TXTSanitize x = x`. -/
theorem TXTSanitize_fixed_point (x : List Byte) (h2 : 2 ≤ x.length)
    (hf : x.head? = some dquote) (hl : x.getLast? = some dquote)
    (hesc : ∀ i, i < ((x.drop 1).dropLast).length →
      ((x.drop 1).dropLast).get? i = some dquote →
      escRun ((x.drop 1).dropLast) i % 2 = 1) :
    TXTSanitize x = x := by
  have hx := quoted_decomp x h2 hf hl
  generalize (x.drop 1).dropLast = c at hx hesc
  subst hx
  have hfix := escapeFrom_fixed c [] (by
    intro i hi hq
    simpa [escRun] using hesc i hi hq)
  rw [trailRun_nil] at hfix
  rw [TXTSanitize_eq, innerContent_wrap, hfix.1, hfix.2, assemble_plain _ _ _ (by simp)]

theorem TXTSanitize_fixed_point_witness :
    TXTSanitize [dquote, 105, backslash, dquote, 114, backslash, backslash, backslash, dquote, dquote]
      = [dquote, 105, backslash, dquote, 114, backslash, backslash, backslash, dquote, dquote] :=
  TXTSanitize_fixed_point
    [dquote, 105, backslash, dquote, 114, backslash, backslash, backslash, dquote, dquote]
    (by decide) (by decide) (by decide) (by decide)

/-- C7: the backslash-parity rule for a single quote.  For `u` without a
double quote and not ending in a backslash, `n` backslashes, a double quote and
`v` without a double quote, the result is `u`, then `m` backslashes, the quote
and `v`, inside one pair of quotes, where `m = n + 1` for even `n` and `m = n`
for odd `n`. -/
theorem TXTSanitize_single_quote (u v : List Byte) (n : Nat) (hu : dquote ∉ u)
    (hu' : u.getLast? ≠ some backslash) (hv : dquote ∉ v) :
    TXTSanitize (u ++ List.replicate n backslash ++ [dquote] ++ v)
      = [dquote] ++ u ++ List.replicate (if n % 2 = 0 then n + 1 else n) backslash
          ++ [dquote] ++ v ++ [dquote] := by
  have hr : dquote ∉ List.replicate n backslash := by
    intro hm
    exact dquote_ne_backslash (List.eq_of_mem_replicate hm)
  have hq : isQuoted (u ++ List.replicate n backslash ++ [dquote] ++ v) = false := by
    cases hc : isQuoted (u ++ List.replicate n backslash ++ [dquote] ++ v) with
    | false => rfl
    | true =>
      have h2 := isQuoted_count _ hc
      simp only [List.count_append, List.count_eq_zero_of_not_mem hu,
        List.count_eq_zero_of_not_mem hr, List.count_eq_zero_of_not_mem hv,
        List.count_cons_self, List.count_nil] at h2
      omega
  rw [TXTSanitize_unquoted _ hq]
  have e : u ++ List.replicate n backslash ++ [dquote] ++ v
      = u ++ (List.replicate n backslash ++ dquote :: v) := by simp
  rw [e, escapeFrom_zero_segment u _ hu, escapeFrom_no_quote _ hr u (dquote :: v),
    trailRun_append_replicate, trailRun_eq_zero u hu', Nat.zero_add]
  by_cases hp : n % 2 = 0
  · simp [escapeFrom, hp, escapeFrom_quote_free v hv, List.replicate_succ']
  · simp [escapeFrom, hp, escapeFrom_quote_free v hv]

theorem TXTSanitize_single_quote_witness :
    TXTSanitize ([116, 104] ++ List.replicate 2 backslash ++ [dquote] ++ [105])
      = [dquote] ++ [116, 104] ++ List.replicate (if 2 % 2 = 0 then 2 + 1 else 2) backslash
          ++ [dquote] ++ [105] ++ [dquote] :=
  TXTSanitize_single_quote [116, 104] [105] 2 (by decide) (by decide) (by decide)

/-- C8: two embedded quotes in a value that is not enclosed in quotes.  For
`u`, `v`, `w` without a double quote, `u` and `v` not ending in a backslash and
`u`, `w` not both empty, each of the two quotes gets one backslash and the
whole is put inside one pair of quotes. -/
theorem TXTSanitize_two_quotes (u v w : List Byte) (hu : dquote ∉ u) (hv : dquote ∉ v)
    (hw : dquote ∉ w) (hu' : u.getLast? ≠ some backslash)
    (hv' : v.getLast? ≠ some backslash) (hne : ¬ (u = [] ∧ w = [])) :
    TXTSanitize (u ++ [dquote] ++ v ++ [dquote] ++ w)
      = [dquote] ++ u ++ [backslash] ++ [dquote] ++ v ++ [backslash] ++ [dquote] ++ w
          ++ [dquote] := by
  have hq : isQuoted (u ++ [dquote] ++ v ++ [dquote] ++ w) = false := by
    by_cases h1 : u = []
    · have h3 : w ≠ [] := fun e => hne ⟨h1, e⟩
      exact isQuoted_false_of_last _ (getLast?_append_ne _ w h3 hw)
    · apply isQuoted_false_of_head
      have e : u ++ [dquote] ++ v ++ [dquote] ++ w = u ++ ([dquote] ++ v ++ [dquote] ++ w) := by
        simp
      rw [e]
      exact head?_append_ne u _ h1 hu
  rw [TXTSanitize_unquoted _ hq]
  have e : u ++ [dquote] ++ v ++ [dquote] ++ w = u ++ dquote :: (v ++ dquote :: w) := by simp
  rw [e, (escapeFrom_two u v w hu hv hw hu' hv').1]
  simp

theorem TXTSanitize_two_quotes_witness :
    TXTSanitize ([97, 115, 32] ++ [dquote] ++ [32, 106, 32] ++ [dquote] ++ [])
      = [dquote] ++ [97, 115, 32] ++ [backslash] ++ [dquote] ++ [32, 106, 32] ++ [backslash]
          ++ [dquote] ++ [] ++ [dquote] :=
  TXTSanitize_two_quotes [97, 115, 32] [32, 106, 32] [] (by decide) (by decide) (by decide)
    (by decide) (by decide) (by decide)

/-- The bytes returned for `"A"M"B"`: for `A`, `M`, `B` without a double
quote, `A` and `M` not ending in a backslash, the re-wrap branch is taken and
each of the four quotes is written with one backslash in front, whatever `B`
ends in. -/
theorem rewrap_equation (A M B : List Byte) (hA : dquote ∉ A) (hM : dquote ∉ M)
    (hB : dquote ∉ B) (hA' : A.getLast? ≠ some backslash)
    (hM' : M.getLast? ≠ some backslash) :
    TXTSanitize ([dquote] ++ A ++ [dquote] ++ M ++ [dquote] ++ B ++ [dquote])
      = [dquote] ++ [backslash] ++ [dquote] ++ A ++ [backslash] ++ [dquote] ++ M
          ++ [backslash] ++ [dquote] ++ B ++ [backslash] ++ [dquote] ++ [dquote] := by
  have e : [dquote] ++ A ++ [dquote] ++ M ++ [dquote] ++ B ++ [dquote]
      = dquote :: ((A ++ dquote :: (M ++ dquote :: B)) ++ [dquote]) := by simp
  obtain ⟨h1, h2⟩ := escapeFrom_two A M B hA hM hB hA' hM'
  rw [e, TXTSanitize_eq, innerContent_wrap, isQuoted_wrap, h1, h2,
    assemble_rewrap _ _ _ (by decide)]
  simp

/-- The backslash run before the last byte of a string `m ++ [c]` is the run
at the end of `m`. -/
theorem escRun_last (m : List Byte) (c : Byte) :
    escRun (m ++ [c]) ((m ++ [c]).length - 1) = trailRun m := by
  have e : (m ++ [c]).length - 1 = m.length := by simp
  rw [e, escRun, List.take_left]

/-- C10 as stated (the closing quote of the output always follows a backslash
run of even length) fails on the code: `TXTSanitize` of the two bytes `a\` is
`"a\"`, where one backslash precedes the last byte. -/
theorem closing_quote_can_be_escaped :
    TXTSanitize [97, backslash] = [dquote, 97, backslash, dquote]
      ∧ ¬ ((TXTSanitize [97, backslash]).getLast? = some dquote
          ∧ escRun (TXTSanitize [97, backslash]) ((TXTSanitize [97, backslash]).length - 1) % 2
              = 0) := by
  decide

/-- C10, amended: for every byte string `x` whose inner content (the part the
scan runs over) ends in a backslash run of even length, possibly zero, the last
byte of `TXTSanitize x` is a double quote and the maximal backslash run
immediately before that last byte has even length. -/
theorem TXTSanitize_closing_quote (x : List Byte)
    (h : trailRun (innerContent x) % 2 = 0) :
    (TXTSanitize x).getLast? = some dquote
      ∧ escRun (TXTSanitize x) ((TXTSanitize x).length - 1) % 2 = 0 := by
  refine ⟨(getLast_TXTSanitize x), ?_⟩
  rw [TXTSanitize_eq]
  by_cases hc : isQuoted x = true ∧ 0 < countFrom 0 (innerContent x)
      ∧ countFrom 0 (innerContent x) % 2 = 0
  · rw [assemble_rewrap _ _ _ hc, ← List.cons_append, escRun_last, ← List.cons_append,
      trailRun_concat_other _ _ dquote_ne_backslash]
  · rw [assemble_plain _ _ _ hc, ← List.cons_append, escRun_last]
    have := trailRun_escapeFrom (innerContent x) [] [dquote] (by decide)
    rw [trailRun_nil] at this
    simp only [List.singleton_append, List.nil_append] at this
    rw [this]
    exact h

theorem TXTSanitize_closing_quote_witness :
    (TXTSanitize [dquote, 97, backslash, backslash, dquote]).getLast? = some dquote
      ∧ escRun (TXTSanitize [dquote, 97, backslash, backslash, dquote])
          ((TXTSanitize [dquote, 97, backslash, backslash, dquote]).length - 1) % 2 = 0 :=
  TXTSanitize_closing_quote [dquote, 97, backslash, backslash, dquote] (by decide)

/-! ## More facts about the byte-wise scan -/

theorem escapeFrom_append (l : List Byte) :
    ∀ (run : Nat) (tl : List Byte),
      escapeFrom run (l ++ tl) = escapeFrom run l ++ escapeFrom (runAfter run l) tl := by
  induction l with
  | nil => intro run tl; simp [escapeFrom, runAfter]
  | cons a t ih =>
    intro run tl
    by_cases ha : a = dquote
    · subst ha
      simp [escapeFrom, runAfter, dquote_ne_backslash, ih]
    · by_cases hb : a = backslash
      · subst hb
        simp [escapeFrom, runAfter, ha, ih]
      · simp [escapeFrom, runAfter, ha, hb, ih]

theorem countFrom_append (l : List Byte) :
    ∀ (run : Nat) (tl : List Byte),
      countFrom run (l ++ tl) = countFrom run l + countFrom (runAfter run l) tl := by
  induction l with
  | nil => intro run tl; simp [countFrom, runAfter]
  | cons a t ih =>
    intro run tl
    by_cases ha : a = dquote
    · subst ha
      simp [countFrom, runAfter, dquote_ne_backslash, ih, Nat.add_assoc]
    · by_cases hb : a = backslash
      · subst hb
        simp [countFrom, runAfter, ha, ih]
      · simp [countFrom, runAfter, ha, hb, ih]

theorem runAfter_escapeFrom (l : List Byte) :
    ∀ run : Nat, runAfter run (escapeFrom run l) = runAfter run l := by
  induction l with
  | nil => intro run; rfl
  | cons a t ih =>
    intro run
    by_cases ha : a = dquote
    · subst ha
      by_cases hp : run % 2 = 0
      · simp [escapeFrom, runAfter, dquote_ne_backslash, hp, ih]
      · simp [escapeFrom, runAfter, dquote_ne_backslash, hp, ih]
    · by_cases hb : a = backslash
      · subst hb
        simp [escapeFrom, runAfter, ha, ih]
      · simp [escapeFrom, runAfter, ha, hb, ih]

/-- Scanning a scanned text changes nothing and inserts nothing. -/
theorem escapeFrom_idem (l : List Byte) :
    ∀ run : Nat, escapeFrom run (escapeFrom run l) = escapeFrom run l
      ∧ countFrom run (escapeFrom run l) = 0 := by
  induction l with
  | nil => intro run; exact ⟨rfl, rfl⟩
  | cons a t ih =>
    intro run
    by_cases ha : a = dquote
    · subst ha
      by_cases hp : run % 2 = 0
      · have hp' : ¬ (run + 1) % 2 = 0 := by omega
        simp [escapeFrom, countFrom, dquote_ne_backslash, dquote_ne_backslash.symm, hp, hp',
          (ih 0).1, (ih 0).2]
      · simp [escapeFrom, countFrom, hp, (ih 0).1, (ih 0).2]
    · by_cases hb : a = backslash
      · subst hb
        simp [escapeFrom, countFrom, ha, (ih (run + 1)).1, (ih (run + 1)).2]
      · simp [escapeFrom, countFrom, ha, hb, (ih 0).1, (ih 0).2]

theorem runAfter_trailRun (suf : List Byte) :
    ∀ pre : List Byte, runAfter (trailRun pre) suf = trailRun (pre ++ suf) := by
  induction suf with
  | nil => intro pre; simp [runAfter]
  | cons a t ih =>
    intro pre
    have hassoc : pre ++ a :: t = (pre ++ [a]) ++ t := by simp
    rw [hassoc, ← ih (pre ++ [a])]
    by_cases hb : a = backslash
    · subst hb
      rw [trailRun_concat_backslash]
      simp [runAfter]
    · rw [trailRun_concat_other _ _ hb]
      simp [runAfter, hb]

theorem runAfter_zero (c : List Byte) : runAfter 0 c = trailRun c := by
  have := runAfter_trailRun c []
  simpa [trailRun_nil] using this

theorem length_escapeFrom (l : List Byte) :
    ∀ run : Nat, (escapeFrom run l).length = l.length + countFrom run l := by
  induction l with
  | nil => intro run; rfl
  | cons a t ih =>
    intro run
    by_cases ha : a = dquote
    · subst ha
      by_cases hp : run % 2 = 0
      · simp [escapeFrom, countFrom, hp, ih]; omega
      · simp [escapeFrom, countFrom, hp, ih]; omega
    · by_cases hb : a = backslash
      · subst hb
        simp [escapeFrom, countFrom, ha, ih]; omega
      · simp [escapeFrom, countFrom, ha, hb, ih]; omega

theorem countFrom_le_length (l : List Byte) :
    ∀ run : Nat, countFrom run l ≤ l.length := by
  induction l with
  | nil => intro run; simp [countFrom]
  | cons a t ih =>
    intro run
    by_cases ha : a = dquote
    · subst ha
      have := ih 0
      by_cases hp : run % 2 = 0
      · simp [countFrom, hp]; omega
      · simp [countFrom, hp]; omega
    · by_cases hb : a = backslash
      · subst hb
        have := ih (run + 1)
        simp [countFrom, ha]; omega
      · have := ih 0
        simp [countFrom, ha, hb]; omega

theorem escapeFrom_of_countFrom_zero (l : List Byte) :
    ∀ run : Nat, countFrom run l = 0 → escapeFrom run l = l := by
  induction l with
  | nil => intro run _; rfl
  | cons a t ih =>
    intro run h
    by_cases ha : a = dquote
    · subst ha
      by_cases hp : run % 2 = 0
      · simp [countFrom, hp] at h
      · simp only [countFrom, if_true, if_neg hp, Nat.zero_add] at h
        simp [escapeFrom, hp, ih 0 h]
    · by_cases hb : a = backslash
      · subst hb
        simp only [countFrom, if_neg ha, if_true] at h
        simp [escapeFrom, ha, ih (run + 1) h]
      · simp only [countFrom, if_neg ha, if_neg hb] at h
        simp [escapeFrom, ha, hb, ih 0 h]

theorem filter_escapeFrom (l : List Byte) :
    ∀ run : Nat, (escapeFrom run l).filter isPlain = l.filter isPlain := by
  induction l with
  | nil => intro run; rfl
  | cons a t ih =>
    intro run
    by_cases ha : a = dquote
    · subst ha
      by_cases hp : run % 2 = 0
      · simp [escapeFrom, hp, isPlain, ih, List.filter_cons]
      · simp [escapeFrom, hp, isPlain, ih, List.filter_cons]
    · by_cases hb : a = backslash
      · subst hb
        simp [escapeFrom, ha, isPlain, ih, List.filter_cons]
      · simp [escapeFrom, ha, hb, isPlain, ih, List.filter_cons]

/-- An input is either not enclosed in quotes, and then scanned whole, or it
is some text between two double quotes. -/
theorem quoted_or_not (x : List Byte) :
    (isQuoted x = false ∧ innerContent x = x) ∨ (∃ c, x = dquote :: (c ++ [dquote])) := by
  cases h : isQuoted x with
  | false =>
    left
    refine ⟨rfl, ?_⟩
    unfold innerContent
    simp [h]
  | true =>
    right
    have h' := h
    unfold isQuoted at h'
    simp only [Bool.and_eq_true, decide_eq_true_eq, beq_iff_eq] at h'
    exact ⟨_, quoted_decomp x h'.1.1 h'.1.2 h'.2⟩

theorem filter_innerContent (x : List Byte) :
    (innerContent x).filter isPlain = x.filter isPlain := by
  rcases quoted_or_not x with ⟨_, h⟩ | ⟨c, rfl⟩
  · rw [h]
  · rw [innerContent_wrap]
    simp [List.filter_cons, List.filter_append, isPlain]

/-- C11: content outside quote handling is preserved byte for byte: the bytes
of `TXTSanitize x` that are neither a double quote nor a backslash are, in the
same order, the bytes of `x` that are neither a double quote nor a backslash. -/
theorem TXTSanitize_plain_bytes (x : List Byte) :
    (TXTSanitize x).filter isPlain = x.filter isPlain := by
  rw [TXTSanitize_eq, ← filter_innerContent x]
  by_cases hc : isQuoted x = true ∧ 0 < countFrom 0 (innerContent x)
      ∧ countFrom 0 (innerContent x) % 2 = 0
  · rw [assemble_rewrap _ _ _ hc]
    simp [List.filter_cons, List.filter_append, isPlain, filter_escapeFrom]
  · rw [assemble_plain _ _ _ hc]
    simp [List.filter_cons, List.filter_append, isPlain, filter_escapeFrom]

theorem escapeFrom_map (f : Byte → Byte) (hq : ∀ b, f b = dquote ↔ b = dquote)
    (hb : ∀ b, f b = backslash ↔ b = backslash) (l : List Byte) :
    ∀ run : Nat, escapeFrom run (l.map f) = (escapeFrom run l).map f
      ∧ countFrom run (l.map f) = countFrom run l := by
  have fq : f dquote = dquote := (hq dquote).mpr rfl
  have fb : f backslash = backslash := (hb backslash).mpr rfl
  induction l with
  | nil => intro run; exact ⟨rfl, rfl⟩
  | cons a t ih =>
    intro run
    by_cases ha : a = dquote
    · subst ha
      by_cases hp : run % 2 = 0
      · simp [escapeFrom, countFrom, fq, fb, hp, (ih 0).1, (ih 0).2]
      · simp [escapeFrom, countFrom, fq, hp, (ih 0).1, (ih 0).2]
    · have ha' : ¬ f a = dquote := fun e => ha ((hq a).mp e)
      by_cases hbs : a = backslash
      · subst hbs
        simp [escapeFrom, countFrom, fb, ha, (ih (run + 1)).1, (ih (run + 1)).2]
      · have hbs' : ¬ f a = backslash := fun e => hbs ((hb a).mp e)
        simp [escapeFrom, countFrom, ha, ha', hbs, hbs', (ih 0).1, (ih 0).2]

theorem isQuoted_map (f : Byte → Byte) (hq : ∀ b, f b = dquote ↔ b = dquote)
    (x : List Byte) : isQuoted (x.map f) = isQuoted x := by
  unfold isQuoted
  rw [List.length_map, List.head?_map, List.getLast?_map]
  have key : ∀ o : Option Byte, (Option.map f o == some dquote) = (o == some dquote) := by
    intro o
    cases o with
    | none => rfl
    | some b =>
      by_cases h : b = dquote
      · simp [h, (hq dquote).mpr rfl]
      · have h' : ¬ f b = dquote := fun e => h ((hq b).mp e)
        simp [h, h']
  rw [key, key]

theorem innerContent_map (f : Byte → Byte) (hq : ∀ b, f b = dquote ↔ b = dquote)
    (x : List Byte) : innerContent (x.map f) = (innerContent x).map f := by
  unfold innerContent
  rw [isQuoted_map f hq]
  split
  · rw [List.length_map, List.map_drop, List.map_take]
  · rfl

theorem assemble_map (f : Byte → Byte) (fq : f dquote = dquote)
    (fb : f backslash = backslash) (quoted : Bool) (escaped : Nat) (bldr : List Byte) :
    assemble quoted escaped (bldr.map f) = (assemble quoted escaped bldr).map f := by
  by_cases hc : quoted = true ∧ 0 < escaped ∧ escaped % 2 = 0
  · rw [assemble_rewrap _ _ _ hc, assemble_rewrap _ _ _ hc]
    simp [fq, fb]
  · rw [assemble_plain _ _ _ hc, assemble_plain _ _ _ hc]
    simp [fq]

/-- C12: bytes other than the double quote and the backslash are opaque: for
every function `f` on bytes that maps the double quote, and nothing else, to
the double quote and the backslash, and nothing else, to the backslash,
`TXTSanitize (map f x) = map f (TXTSanitize x)`. -/
theorem TXTSanitize_map (f : Byte → Byte) (hq : ∀ b, f b = dquote ↔ b = dquote)
    (hb : ∀ b, f b = backslash ↔ b = backslash) (x : List Byte) :
    TXTSanitize (x.map f) = (TXTSanitize x).map f := by
  have fq : f dquote = dquote := (hq dquote).mpr rfl
  have fb : f backslash = backslash := (hb backslash).mpr rfl
  rw [TXTSanitize_eq, TXTSanitize_eq, isQuoted_map f hq, innerContent_map f hq,
    (escapeFrom_map f hq hb (innerContent x) 0).1, (escapeFrom_map f hq hb (innerContent x) 0).2,
    assemble_map f fq fb]

/-- A renaming of bytes that fixes the double quote and the backslash and
sends every other byte to `x` (120). -/
theorem TXTSanitize_map_witness :
    TXTSanitize
        ([dquote, 102, dquote, 32, backslash, dquote, 98, dquote].map
          (fun b => if b = dquote ∨ b = backslash then b else 120))
      = (TXTSanitize [dquote, 102, dquote, 32, backslash, dquote, 98, dquote]).map
          (fun b => if b = dquote ∨ b = backslash then b else 120) :=
  TXTSanitize_map (fun b => if b = dquote ∨ b = backslash then b else 120)
    (by
      intro b
      by_cases h1 : b = dquote
      · simp [h1]
      · by_cases h2 : b = backslash
        · simp [h2, dquote_ne_backslash.symm]
        · simp only [h1, h2, or_self, if_false, iff_false]
          decide)
    (by
      intro b
      by_cases h1 : b = dquote
      · simp [h1, dquote_ne_backslash]
      · by_cases h2 : b = backslash
        · simp [h2]
        · simp only [h1, h2, or_self, if_false, iff_false]
          decide)
    [dquote, 102, dquote, 32, backslash, dquote, 98, dquote]

/-! ## The reference description agrees with the scan -/

theorem get?_at_length (pre t : List Byte) (a : Byte) :
    (pre ++ a :: t).get? pre.length = some a := by
  rw [List.get?_eq_getElem?, List.getElem?_append_right (Nat.le_refl _)]
  simp

theorem needsEscape_at_length (pre t : List Byte) (a : Byte) :
    needsEscape (pre ++ a :: t) pre.length = decide (a = dquote ∧ trailRun pre % 2 = 0) := by
  unfold needsEscape escRun
  rw [get?_at_length, List.take_left]
  simp

/-- The pieces `specP` lays down for the positions of `suf` inside `pre ++ suf`
make up what the byte-wise scan gives for `suf`, and `specE` counts what the
scan counts. -/
theorem spec_pieces (suf : List Byte) :
    ∀ pre : List Byte,
      ((List.range suf.length).flatMap fun i =>
          if needsEscape (pre ++ suf) (pre.length + i) = true then
            backslash :: ((pre ++ suf).get? (pre.length + i)).toList
          else ((pre ++ suf).get? (pre.length + i)).toList)
        = escapeFrom (trailRun pre) suf
      ∧ ((List.range suf.length).filter
          fun i => needsEscape (pre ++ suf) (pre.length + i)).length
        = countFrom (trailRun pre) suf := by
  induction suf with
  | nil => intro pre; exact ⟨rfl, rfl⟩
  | cons a t ih =>
    intro pre
    obtain ⟨ih1, ih2⟩ := ih (pre ++ [a])
    have hassoc : (pre ++ [a]) ++ t = pre ++ a :: t := by simp
    have hidx : ∀ i, (pre ++ [a]).length + i = pre.length + (i + 1) := by
      intro i; simp; omega
    simp only [hassoc, hidx] at ih1 ih2
    have hhead := needsEscape_at_length pre t a
    have hget := get?_at_length pre t a
    simp only [List.length_cons, List.range_succ_eq_map, List.flatMap_cons, List.flatMap_map,
      List.filter_cons, List.filter_map, Nat.add_zero, Nat.succ_eq_add_one, hhead, hget,
      Function.comp_def]
    refine ⟨?_, ?_⟩
    · rw [ih1]
      by_cases ha : a = dquote
      · subst ha
        rw [trailRun_concat_other _ _ dquote_ne_backslash]
        by_cases hp : trailRun pre % 2 = 0
        · simp [escapeFrom, hp]
        · simp [escapeFrom, hp]
      · by_cases hb : a = backslash
        · subst hb
          rw [trailRun_concat_backslash]
          simp [escapeFrom, ha]
        · rw [trailRun_concat_other _ _ hb]
          simp [escapeFrom, ha, hb]
    · by_cases ha : a = dquote
      · subst ha
        rw [trailRun_concat_other _ _ dquote_ne_backslash] at ih2
        by_cases hp : trailRun pre % 2 = 0
        · simp [countFrom, hp, ih2]; omega
        · simp [countFrom, hp, ih2]
      · by_cases hb : a = backslash
        · subst hb
          rw [trailRun_concat_backslash] at ih2
          simp [countFrom, ha, ih2]
        · rw [trailRun_concat_other _ _ hb] at ih2
          simp [countFrom, ha, hb, ih2]

theorem specP_eq (c : List Byte) : specP c = escapeFrom 0 c := by
  have := (spec_pieces c []).1
  simpa [specP, trailRun_nil] using this

theorem specE_eq (c : List Byte) : specE c = countFrom 0 c := by
  have := (spec_pieces c []).2
  simpa [specE, trailRun_nil] using this

theorem specQuoted_iff (x : List Byte) : specQuoted x ↔ isQuoted x = true := by
  unfold specQuoted isQuoted
  simp [and_assoc]

theorem specInner_eq (x : List Byte) : specInner x = innerContent x := by
  unfold specInner
  rcases quoted_or_not x with ⟨h1, h2⟩ | ⟨c, rfl⟩
  · have : ¬ specQuoted x := by rw [specQuoted_iff, h1]; simp
    rw [if_neg this, h2]
  · have : specQuoted (dquote :: (c ++ [dquote])) := by
      rw [specQuoted_iff]; exact isQuoted_wrap c
    rw [if_pos this, innerContent_wrap]
    simp

theorem TXTSanitize_eq_spec (x : List Byte) : TXTSanitize x = specSanitize x := by
  unfold specSanitize
  rw [TXTSanitize_eq, specInner_eq, specP_eq, specE_eq]
  by_cases hc : isQuoted x = true ∧ 0 < countFrom 0 (innerContent x)
      ∧ countFrom 0 (innerContent x) % 2 = 0
  · have hs : specQuoted x ∧ 0 < countFrom 0 (innerContent x)
        ∧ countFrom 0 (innerContent x) % 2 = 0 := ⟨(specQuoted_iff x).mpr hc.1, hc.2⟩
    rw [assemble_rewrap _ _ _ hc, if_pos hs]
    simp
  · have hs : ¬ (specQuoted x ∧ 0 < countFrom 0 (innerContent x)
        ∧ countFrom 0 (innerContent x) % 2 = 0) :=
      fun h => hc ⟨(specQuoted_iff x).mp h.1, h.2⟩
    rw [assemble_plain _ _ _ hc, if_neg hs]
    simp

/-- C13: the jump-scanning loop equals the byte-wise reference definition:
with `inner`, `P` and `E` as the specification words them (`specInner`,
`specP`, `specE`), `TXTSanitize x` is `"\"` ++ `P` ++ `\""` when `x` is
enclosed in quotes and `E` is positive and even, and `"` ++ `P` ++ `"`
otherwise. -/
theorem TXTSanitize_refines_reference (x : List Byte) :
    (specQuoted x ∧ 0 < specE (specInner x) ∧ specE (specInner x) % 2 = 0 →
        TXTSanitize x
          = [dquote] ++ [backslash] ++ [dquote] ++ specP (specInner x)
              ++ [backslash] ++ [dquote] ++ [dquote])
      ∧ (¬ (specQuoted x ∧ 0 < specE (specInner x) ∧ specE (specInner x) % 2 = 0) →
        TXTSanitize x = [dquote] ++ specP (specInner x) ++ [dquote]) := by
  rw [TXTSanitize_eq_spec]
  unfold specSanitize
  constructor
  · intro h
    rw [if_pos h]
    simp
  · intro h
    rw [if_neg h]

theorem TXTSanitize_refines_reference_witness :
    TXTSanitize [dquote, 102, dquote, 32, dquote, 98, backslash, dquote]
        = [dquote] ++ [backslash] ++ [dquote]
            ++ specP (specInner [dquote, 102, dquote, 32, dquote, 98, backslash, dquote])
            ++ [backslash] ++ [dquote] ++ [dquote]
      ∧ TXTSanitize [102, dquote, 32, dquote, 98]
        = [dquote] ++ specP (specInner [102, dquote, 32, dquote, 98]) ++ [dquote] :=
  ⟨(TXTSanitize_refines_reference
      [dquote, 102, dquote, 32, dquote, 98, backslash, dquote]).1 (by decide),
    (TXTSanitize_refines_reference [102, dquote, 32, dquote, 98]).2 (by decide)⟩

theorem escapedCount_eq (x : List Byte) :
    escapedCount x = countFrom 0 (innerContent x) := by
  have hlen := innerContent_length_le x
  obtain ⟨i, hi⟩ := scanLoop_eq (x.length + 1) [] (innerContent x) (x.length + 1) 0 []
    (by simp only [List.nil_append]; omega) (by omega)
  simp only [List.nil_append, List.length_nil, Nat.zero_add, trailRun_nil] at hi
  have hz : ((0 : Nat) : Int) = 0 := rfl
  rw [hz] at hi
  unfold escapedCount
  rw [hi]

/-- C14: an odd number of newly escaped quotes never triggers re-wrapping.
When `x` is enclosed in quotes (length at least 2, first and last byte a
double quote) and its inner content has an odd number `E` of double quotes
after a backslash run of even length, `TXTSanitize x` is the inner content
with a backslash put before exactly those quotes, inside one pair of quotes,
and its length is `len(x) + E`. -/
theorem TXTSanitize_odd_count (x : List Byte) (h2 : 2 ≤ x.length)
    (hf : x.head? = some dquote) (hl : x.getLast? = some dquote)
    (hodd : specE ((x.drop 1).dropLast) % 2 = 1) :
    TXTSanitize x = [dquote] ++ specP ((x.drop 1).dropLast) ++ [dquote]
      ∧ (TXTSanitize x).length = x.length + specE ((x.drop 1).dropLast) := by
  have hx := quoted_decomp x h2 hf hl
  generalize (x.drop 1).dropLast = c at hx hodd
  subst hx
  rw [specE_eq] at hodd
  have hc : ¬ (isQuoted (dquote :: (c ++ [dquote])) = true ∧ 0 < countFrom 0 c
      ∧ countFrom 0 c % 2 = 0) := by
    intro h; omega
  rw [TXTSanitize_eq, innerContent_wrap, assemble_plain _ _ _ hc, specP_eq, specE_eq]
  refine ⟨by simp, ?_⟩
  simp only [List.length_cons, List.length_append, List.length_nil, length_escapeFrom]
  omega

set_option maxRecDepth 100000 in
theorem TXTSanitize_odd_count_witness :
    (TXTSanitize testRawQuote = [dquote] ++ specP ((testRawQuote.drop 1).dropLast) ++ [dquote]
        ∧ (TXTSanitize testRawQuote).length
          = testRawQuote.length + specE ((testRawQuote.drop 1).dropLast))
      ∧ specE ((testRawQuote.drop 1).dropLast) = 1 :=
  ⟨TXTSanitize_odd_count testRawQuote (by decide) (by decide) (by decide) (by decide),
    by decide⟩

theorem getLast?_mem (l : List Byte) (b : Byte) (h : l.getLast? = some b) : b ∈ l := by
  rcases List.eq_nil_or_concat l with rfl | ⟨t, a, rfl⟩
  · simp at h
  · rw [List.concat_eq_append] at h ⊢
    rw [List.getLast?_concat, Option.some.injEq] at h
    simp [h]

/-- A quote after a stretch without quotes and without backslashes gets a
backslash and is counted. -/
theorem escapeFrom_span (A rest : List Byte) (hA : dquote ∉ A ∧ backslash ∉ A) :
    escapeFrom 0 (A ++ dquote :: rest) = A ++ backslash :: dquote :: escapeFrom 0 rest
      ∧ countFrom 0 (A ++ dquote :: rest) = 1 + countFrom 0 rest := by
  have ht : trailRun A = 0 :=
    trailRun_eq_zero A (fun e => hA.2 (getLast?_mem A backslash e))
  rw [escapeFrom_zero_segment A _ hA.1, countFrom_zero_segment A _ hA.1, ht]
  simp [escapeFrom, countFrom]

/-- C15 as stated (three quoted spans give an odd number of newly escaped
quotes and no re-wrapping) fails on the code: for `"a" "b" "c"` the scan
escapes four quotes and the result is re-wrapped. -/
theorem three_spans_are_rewrapped :
    escapedCount ([dquote] ++ [97] ++ [dquote] ++ [32] ++ [dquote] ++ [98] ++ [dquote] ++ [32]
        ++ [dquote] ++ [99] ++ [dquote]) = 4
      ∧ TXTSanitize ([dquote] ++ [97] ++ [dquote] ++ [32] ++ [dquote] ++ [98] ++ [dquote]
          ++ [32] ++ [dquote] ++ [99] ++ [dquote])
        = [dquote, backslash, dquote, 97, backslash, dquote, 32, backslash, dquote, 98,
            backslash, dquote, 32, backslash, dquote, 99, backslash, dquote, dquote]
      ∧ ¬ (escapedCount ([dquote] ++ [97] ++ [dquote] ++ [32] ++ [dquote] ++ [98] ++ [dquote]
              ++ [32] ++ [dquote] ++ [99] ++ [dquote]) % 2 = 1
          ∧ TXTSanitize ([dquote] ++ [97] ++ [dquote] ++ [32] ++ [dquote] ++ [98] ++ [dquote]
              ++ [32] ++ [dquote] ++ [99] ++ [dquote])
            = [dquote] ++ [97] ++ [backslash, dquote] ++ [32] ++ [backslash, dquote] ++ [98]
                ++ [backslash, dquote] ++ [32] ++ [backslash, dquote] ++ [99] ++ [dquote]) := by
  decide

/-- C15, amended: a value made of three independent quoted spans has an even
number, four, of newly escaped quotes and is re-wrapped.  For `A`, `S`, `B`,
`T`, `C` free of double quotes and backslashes, `TXTSanitize` of
`"A"S"B"T"C"` escapes the four inner quotes and returns
`"\"A\"S\"B\"T\"C\""`. -/
theorem TXTSanitize_three_spans (A S B T C : List Byte)
    (hA : dquote ∉ A ∧ backslash ∉ A) (hS : dquote ∉ S ∧ backslash ∉ S)
    (hB : dquote ∉ B ∧ backslash ∉ B) (hT : dquote ∉ T ∧ backslash ∉ T)
    (hC : dquote ∉ C ∧ backslash ∉ C) :
    escapedCount ([dquote] ++ A ++ [dquote] ++ S ++ [dquote] ++ B ++ [dquote] ++ T
        ++ [dquote] ++ C ++ [dquote]) = 4
      ∧ TXTSanitize ([dquote] ++ A ++ [dquote] ++ S ++ [dquote] ++ B ++ [dquote] ++ T
          ++ [dquote] ++ C ++ [dquote])
        = [dquote] ++ [backslash, dquote] ++ A ++ [backslash, dquote] ++ S
            ++ [backslash, dquote] ++ B ++ [backslash, dquote] ++ T ++ [backslash, dquote]
            ++ C ++ [backslash, dquote] ++ [dquote] := by
  have e : [dquote] ++ A ++ [dquote] ++ S ++ [dquote] ++ B ++ [dquote] ++ T
      ++ [dquote] ++ C ++ [dquote]
      = dquote :: ((A ++ dquote :: (S ++ dquote :: (B ++ dquote :: (T ++ dquote :: C))))
          ++ [dquote]) := by simp
  have h1 := escapeFrom_span A (S ++ dquote :: (B ++ dquote :: (T ++ dquote :: C))) hA
  have h2 := escapeFrom_span S (B ++ dquote :: (T ++ dquote :: C)) hS
  have h3 := escapeFrom_span B (T ++ dquote :: C) hB
  have h4 := escapeFrom_span T C hT
  have h5 := escapeFrom_quote_free C hC.1 0
  have h6 := countFrom_quote_free C hC.1 0
  have hcount : countFrom 0 (A ++ dquote :: (S ++ dquote :: (B ++ dquote :: (T ++ dquote :: C))))
      = 4 := by
    rw [h1.2, h2.2, h3.2, h4.2, h6]
  rw [e, escapedCount_eq, TXTSanitize_eq, innerContent_wrap, isQuoted_wrap, hcount,
    assemble_rewrap _ _ _ (by decide), h1.1, h2.1, h3.1, h4.1, h5]
  refine ⟨rfl, ?_⟩
  simp

theorem TXTSanitize_three_spans_witness :
    escapedCount ([dquote] ++ [102, 111] ++ [dquote] ++ [32] ++ [dquote] ++ [] ++ [dquote]
        ++ [44, 32] ++ [dquote] ++ [98] ++ [dquote]) = 4
      ∧ TXTSanitize ([dquote] ++ [102, 111] ++ [dquote] ++ [32] ++ [dquote] ++ [] ++ [dquote]
          ++ [44, 32] ++ [dquote] ++ [98] ++ [dquote])
        = [dquote] ++ [backslash, dquote] ++ [102, 111] ++ [backslash, dquote] ++ [32]
            ++ [backslash, dquote] ++ [] ++ [backslash, dquote] ++ [44, 32]
            ++ [backslash, dquote] ++ [98] ++ [backslash, dquote] ++ [dquote] :=
  TXTSanitize_three_spans [102, 111] [32] [] [44, 32] [98] (by decide) (by decide)
    (by decide) (by decide) (by decide)

/-! ## Repeated application -/

/-- A scanned text between two double quotes is a fixed point. -/
theorem TXTSanitize_scanned (c : List Byte) :
    TXTSanitize (dquote :: (escapeFrom 0 c ++ [dquote]))
      = dquote :: (escapeFrom 0 c ++ [dquote]) := by
  rw [TXTSanitize_eq, innerContent_wrap, (escapeFrom_idem c 0).1, (escapeFrom_idem c 0).2,
    assemble_plain _ _ _ (by simp)]

/-- What a second pass counts inside a re-wrapped result: one quote, the last
one, when the scanned text ends in a backslash run of odd length, else none. -/
theorem countFrom_rewrapped (c : List Byte) :
    countFrom 0 ([backslash, dquote] ++ escapeFrom 0 c ++ [backslash, dquote])
      = if trailRun c % 2 = 1 then 1 else 0 := by
  have e : [backslash, dquote] ++ escapeFrom 0 c ++ [backslash, dquote]
      = backslash :: dquote :: (escapeFrom 0 c ++ [backslash, dquote]) := by simp
  rw [e]
  simp only [countFrom, if_neg dquote_ne_backslash.symm, if_true]
  rw [countFrom_append, (escapeFrom_idem c 0).2, runAfter_escapeFrom, runAfter_zero]
  simp only [countFrom, if_neg dquote_ne_backslash.symm, if_true]
  by_cases hp : trailRun c % 2 = 1
  · have : (trailRun c + 1) % 2 = 0 := by omega
    simp [hp, this]
  · have : ¬ (trailRun c + 1) % 2 = 0 := by omega
    simp [hp, this]

/-- The result of `TXTSanitize` has one of two shapes: the scanned inner
content between two quotes, or the same with an escaped quote added on each
side (the re-wrap branch, taken when the input is enclosed in quotes and the
counter is positive and even). -/
theorem TXTSanitize_shape (x : List Byte) :
    TXTSanitize x = dquote :: (escapeFrom 0 (innerContent x) ++ [dquote])
      ∨ ((isQuoted x = true ∧ 0 < countFrom 0 (innerContent x)
            ∧ countFrom 0 (innerContent x) % 2 = 0)
          ∧ TXTSanitize x
            = dquote :: (([backslash, dquote] ++ escapeFrom 0 (innerContent x)
                ++ [backslash, dquote]) ++ [dquote])) := by
  rw [TXTSanitize_eq]
  by_cases hc : isQuoted x = true ∧ 0 < countFrom 0 (innerContent x)
      ∧ countFrom 0 (innerContent x) % 2 = 0
  · right
    refine ⟨hc, ?_⟩
    rw [assemble_rewrap _ _ _ hc]
    simp
  · left
    exact assemble_plain _ _ _ hc

/-- The second pass counts at most one quote, so it does not re-wrap, and its
result is a scanned text between two quotes. -/
theorem second_pass (x : List Byte) :
    countFrom 0 (innerContent (TXTSanitize x)) ≤ 1
      ∧ ∃ c, TXTSanitize (TXTSanitize x) = dquote :: (escapeFrom 0 c ++ [dquote]) := by
  rcases TXTSanitize_shape x with h | ⟨_, h⟩
  · rw [h, innerContent_wrap, (escapeFrom_idem _ 0).2]
    exact ⟨Nat.zero_le _, innerContent x, TXTSanitize_scanned _⟩
  · have hk := countFrom_rewrapped (innerContent x)
    have hle : countFrom 0 ([backslash, dquote] ++ escapeFrom 0 (innerContent x)
        ++ [backslash, dquote]) ≤ 1 := by
      rw [hk]; split <;> omega
    rw [h, innerContent_wrap]
    refine ⟨hle, [backslash, dquote] ++ escapeFrom 0 (innerContent x) ++ [backslash, dquote], ?_⟩
    rw [TXTSanitize_eq, innerContent_wrap, assemble_plain _ _ _ (by intro hh; omega)]

/-- C16: repeated application stabilises after at most two passes: for every
`x`, `TXTSanitize (TXTSanitize (TXTSanitize x)) = TXTSanitize (TXTSanitize x)`;
the second pass newly escapes at most one quote, so it never takes the re-wrap
branch, and its result is a fixed point of `TXTSanitize`. -/
theorem TXTSanitize_stable_after_two (x : List Byte) :
    TXTSanitize (TXTSanitize (TXTSanitize x)) = TXTSanitize (TXTSanitize x)
      ∧ escapedCount (TXTSanitize x) ≤ 1 := by
  obtain ⟨hle, c, hc⟩ := second_pass x
  refine ⟨?_, ?_⟩
  · rw [hc, TXTSanitize_scanned]
  · rw [escapedCount_eq]; exact hle

/-- C17: idempotence under a trailing-backslash precondition: when the inner
content of `x` does not end in a backslash,
`TXTSanitize (TXTSanitize x) = TXTSanitize x`; and the same holds for every `x`
that is not enclosed in quotes, whatever it ends in. -/
theorem TXTSanitize_idempotent_of_no_trailing_backslash :
    (∀ x : List Byte, (innerContent x).getLast? ≠ some backslash →
        TXTSanitize (TXTSanitize x) = TXTSanitize x)
      ∧ (∀ x : List Byte, isQuoted x = false →
        TXTSanitize (TXTSanitize x) = TXTSanitize x) := by
  constructor
  · intro x hx
    rcases TXTSanitize_shape x with h | ⟨_, h⟩
    · rw [h, TXTSanitize_scanned]
    · have hk := countFrom_rewrapped (innerContent x)
      rw [trailRun_eq_zero _ hx] at hk
      simp only [Nat.zero_mod, zero_ne_one, if_false] at hk
      rw [h, TXTSanitize_eq, innerContent_wrap, hk,
        escapeFrom_of_countFrom_zero _ 0 hk, assemble_plain _ _ _ (by simp)]
  · intro x hx
    rcases TXTSanitize_shape x with h | ⟨hc, _⟩
    · rw [h, TXTSanitize_scanned]
    · rw [hx] at hc
      exact absurd hc.1 (by simp)

theorem TXTSanitize_idempotent_of_no_trailing_backslash_witness :
    TXTSanitize (TXTSanitize [dquote, 102, dquote, 32, backslash, dquote, 98, dquote])
        = TXTSanitize [dquote, 102, dquote, 32, backslash, dquote, 98, dquote]
      ∧ TXTSanitize (TXTSanitize [102, dquote, 32, dquote, backslash])
        = TXTSanitize [102, dquote, 32, dquote, backslash] :=
  ⟨TXTSanitize_idempotent_of_no_trailing_backslash.1
      [dquote, 102, dquote, 32, backslash, dquote, 98, dquote] (by decide),
    TXTSanitize_idempotent_of_no_trailing_backslash.2
      [102, dquote, 32, dquote, backslash] (by decide)⟩

/-- C18: the output length is bounded by the input length:
`len(x) ≤ len(TXTSanitize x) ≤ 2 * len(x) + 2`, and the two lengths are equal
exactly when `TXTSanitize x = x`. -/
theorem TXTSanitize_length_bounds (x : List Byte) :
    x.length ≤ (TXTSanitize x).length
      ∧ (TXTSanitize x).length ≤ 2 * x.length + 2
      ∧ ((TXTSanitize x).length = x.length ↔ TXTSanitize x = x) := by
  rcases quoted_or_not x with ⟨hq, hi⟩ | ⟨c, rfl⟩
  · have hle := countFrom_le_length x 0
    have hlen : (TXTSanitize x).length = x.length + countFrom 0 x + 2 := by
      rw [TXTSanitize_unquoted x hq]
      simp only [List.length_cons, List.length_append, List.length_nil, length_escapeFrom]
    refine ⟨by omega, by omega, ?_⟩
    constructor
    · intro h; omega
    · intro h
      have := congrArg List.length h
      omega
  · have hle := countFrom_le_length c 0
    have hx : (dquote :: (c ++ [dquote])).length = c.length + 2 := by simp
    rcases TXTSanitize_shape (dquote :: (c ++ [dquote])) with h | ⟨_, h⟩
    · rw [innerContent_wrap] at h
      have hlen : (TXTSanitize (dquote :: (c ++ [dquote]))).length
          = c.length + countFrom 0 c + 2 := by
        rw [h]
        simp only [List.length_cons, List.length_append, List.length_nil, length_escapeFrom]
      refine ⟨by omega, by omega, ?_⟩
      constructor
      · intro hh
        have hz : countFrom 0 c = 0 := by omega
        rw [h, escapeFrom_of_countFrom_zero c 0 hz]
      · intro hh
        rw [hh]
    · rw [innerContent_wrap] at h
      have hlen : (TXTSanitize (dquote :: (c ++ [dquote]))).length
          = c.length + countFrom 0 c + 6 := by
        rw [h]
        simp only [List.length_cons, List.length_append, List.length_nil, length_escapeFrom]
        omega
      refine ⟨by omega, by omega, ?_⟩
      constructor
      · intro hh; omega
      · intro hh
        have := congrArg List.length hh
        omega

/-! ## Re-wrapping and the escaping of the four original quotes -/

/-- A double quote that follows `pre` in a text sits at position `pre.length`,
and the backslash run before it is the one at the end of `pre`. -/
theorem quote_at (out pre rest : List Byte) (i : Nat) (h : out = pre ++ dquote :: rest)
    (hi : i = pre.length) : out.get? i = some dquote ∧ escRun out i = trailRun pre := by
  subst h
  subst hi
  refine ⟨get?_at_length pre rest dquote, ?_⟩
  unfold escRun
  rw [List.take_left]

theorem trailRun_append_eq_zero (pre u : List Byte) (hp : trailRun pre = 0)
    (hu : u.getLast? ≠ some backslash) : trailRun (pre ++ u) = 0 := by
  rcases List.eq_nil_or_concat u with rfl | ⟨l, b, rfl⟩
  · simpa using hp
  · rw [List.concat_eq_append] at hu ⊢
    rw [List.getLast?_concat] at hu
    rw [← List.append_assoc]
    exact trailRun_concat_other _ b (fun e => hu (by rw [e]))

theorem trailRun_append_of_zero (pre u : List Byte) (hp : trailRun pre = 0) :
    trailRun (pre ++ u) = trailRun u := by
  rw [← runAfter_trailRun u pre, hp, runAfter_zero]

/-- C9 as stated fails on the code: for `A = a`, `M = b`, `B = \` (the input
`"a"b"\"`) the claim's hypotheses hold and the bytes are the ones the claim
gives, but the fourth original quote, at index 11 of the result, follows two
backslashes: it is not kept as an escaped quote. -/
theorem rewrap_fourth_quote_unescaped :
    (dquote ∉ [(97 : Byte)] ∧ dquote ∉ [(98 : Byte)] ∧ dquote ∉ [backslash]
        ∧ [(97 : Byte)].getLast? ≠ some backslash ∧ [(98 : Byte)].getLast? ≠ some backslash)
      ∧ TXTSanitize ([dquote] ++ [97] ++ [dquote] ++ [98] ++ [dquote] ++ [backslash] ++ [dquote])
        = [dquote] ++ [backslash] ++ [dquote] ++ [97] ++ [backslash] ++ [dquote] ++ [98]
            ++ [backslash] ++ [dquote] ++ [backslash] ++ [backslash] ++ [dquote] ++ [dquote]
      ∧ (TXTSanitize ([dquote] ++ [97] ++ [dquote] ++ [98] ++ [dquote] ++ [backslash]
          ++ [dquote])).get? 11 = some dquote
      ∧ escRun (TXTSanitize ([dquote] ++ [97] ++ [dquote] ++ [98] ++ [dquote] ++ [backslash]
          ++ [dquote])) 11 = 2
      ∧ ¬ (escRun (TXTSanitize ([dquote] ++ [97] ++ [dquote] ++ [98] ++ [dquote]
              ++ [backslash] ++ [dquote])) 2 % 2 = 1
          ∧ escRun (TXTSanitize ([dquote] ++ [97] ++ [dquote] ++ [98] ++ [dquote]
              ++ [backslash] ++ [dquote])) 5 % 2 = 1
          ∧ escRun (TXTSanitize ([dquote] ++ [97] ++ [dquote] ++ [98] ++ [dquote]
              ++ [backslash] ++ [dquote])) 8 % 2 = 1
          ∧ escRun (TXTSanitize ([dquote] ++ [97] ++ [dquote] ++ [98] ++ [dquote]
              ++ [backslash] ++ [dquote])) 11 % 2 = 1) := by
  decide

/-- C9, amended: re-wrapping of a value that begins and ends with a quoted
span.  For `A`, `M`, `B` without a double quote, `A` and `M` not ending in a
backslash and `B` ending in a backslash run of even length (possibly zero),
`TXTSanitize` of `"A"M"B"` is `"\"A\"M\"B\""`, and in that result each of the
four original quotes (at positions 2, `len A + 4`, `len A + len M + 6` and
`len A + len M + len B + 8`) follows a backslash run of odd length: all four
are kept as escaped quotes inside one new pair of quotes. -/
theorem TXTSanitize_rewrap (A M B : List Byte) (hA : dquote ∉ A) (hM : dquote ∉ M)
    (hB : dquote ∉ B) (hA' : A.getLast? ≠ some backslash)
    (hM' : M.getLast? ≠ some backslash) (hB' : trailRun B % 2 = 0) :
    TXTSanitize ([dquote] ++ A ++ [dquote] ++ M ++ [dquote] ++ B ++ [dquote])
        = [dquote] ++ [backslash] ++ [dquote] ++ A ++ [backslash] ++ [dquote] ++ M
            ++ [backslash] ++ [dquote] ++ B ++ [backslash] ++ [dquote] ++ [dquote]
      ∧ ∀ i, (i = 2 ∨ i = A.length + 4 ∨ i = A.length + M.length + 6
            ∨ i = A.length + M.length + B.length + 8) →
          (TXTSanitize ([dquote] ++ A ++ [dquote] ++ M ++ [dquote] ++ B ++ [dquote])).get? i
              = some dquote
            ∧ escRun (TXTSanitize ([dquote] ++ A ++ [dquote] ++ M ++ [dquote] ++ B
                ++ [dquote])) i % 2 = 1 := by
  have heq := rewrap_equation A M B hA hM hB hA' hM'
  refine ⟨heq, ?_⟩
  rw [heq]
  have t1 : trailRun [dquote, backslash] = 1 := by decide
  have z1 : trailRun ([dquote, backslash] ++ [dquote]) = 0 :=
    trailRun_concat_other _ _ dquote_ne_backslash
  have t2 : trailRun (([dquote, backslash] ++ [dquote]) ++ A ++ [backslash]) = 1 := by
    rw [trailRun_concat_backslash, trailRun_append_eq_zero _ A z1 hA']
  have z2 : trailRun ((([dquote, backslash] ++ [dquote]) ++ A ++ [backslash]) ++ [dquote]) = 0 :=
    trailRun_concat_other _ _ dquote_ne_backslash
  have t3 : trailRun (((([dquote, backslash] ++ [dquote]) ++ A ++ [backslash]) ++ [dquote])
      ++ M ++ [backslash]) = 1 := by
    rw [trailRun_concat_backslash, trailRun_append_eq_zero _ M z2 hM']
  have z3 : trailRun ((((([dquote, backslash] ++ [dquote]) ++ A ++ [backslash]) ++ [dquote])
      ++ M ++ [backslash]) ++ [dquote]) = 0 :=
    trailRun_concat_other _ _ dquote_ne_backslash
  have t4 : trailRun ((((((([dquote, backslash] ++ [dquote]) ++ A ++ [backslash]) ++ [dquote])
      ++ M ++ [backslash]) ++ [dquote]) ++ B) ++ [backslash]) = trailRun B + 1 := by
    rw [trailRun_concat_backslash, trailRun_append_of_zero _ B z3]
  have Q := quote_at ([dquote] ++ [backslash] ++ [dquote] ++ A ++ [backslash] ++ [dquote] ++ M
    ++ [backslash] ++ [dquote] ++ B ++ [backslash] ++ [dquote] ++ [dquote])
  intro i hi
  rcases hi with rfl | rfl | rfl | rfl
  · obtain ⟨g, r⟩ := Q [dquote, backslash]
      (A ++ [backslash] ++ [dquote] ++ M ++ [backslash] ++ [dquote] ++ B ++ [backslash]
        ++ [dquote] ++ [dquote]) 2 (by simp) rfl
    exact ⟨g, by rw [r, t1]⟩
  · obtain ⟨g, r⟩ := Q (([dquote, backslash] ++ [dquote]) ++ A ++ [backslash])
      (M ++ [backslash] ++ [dquote] ++ B ++ [backslash] ++ [dquote] ++ [dquote])
      (A.length + 4) (by simp)
      (by simp only [List.length_append, List.length_cons, List.length_nil]; omega)
    exact ⟨g, by rw [r, t2]⟩
  · obtain ⟨g, r⟩ := Q
      (((([dquote, backslash] ++ [dquote]) ++ A ++ [backslash]) ++ [dquote]) ++ M ++ [backslash])
      (B ++ [backslash] ++ [dquote] ++ [dquote])
      (A.length + M.length + 6) (by simp)
      (by simp only [List.length_append, List.length_cons, List.length_nil]; omega)
    exact ⟨g, by rw [r, t3]⟩
  · obtain ⟨g, r⟩ := Q
      ((((((([dquote, backslash] ++ [dquote]) ++ A ++ [backslash]) ++ [dquote])
        ++ M ++ [backslash]) ++ [dquote]) ++ B) ++ [backslash])
      [dquote]
      (A.length + M.length + B.length + 8) (by simp)
      (by simp only [List.length_append, List.length_cons, List.length_nil]; omega)
    exact ⟨g, by rw [r, t4]; omega⟩

theorem TXTSanitize_rewrap_witness :
    TXTSanitize ([dquote] ++ [102, 111, 111] ++ [dquote] ++ [32, 38, 32] ++ [dquote]
        ++ [98, 97, backslash, backslash] ++ [dquote])
        = [dquote] ++ [backslash] ++ [dquote] ++ [102, 111, 111] ++ [backslash] ++ [dquote]
            ++ [32, 38, 32] ++ [backslash] ++ [dquote] ++ [98, 97, backslash, backslash]
            ++ [backslash] ++ [dquote] ++ [dquote]
      ∧ ∀ i, (i = 2 ∨ i = [(102 : Byte), 111, 111].length + 4
            ∨ i = [(102 : Byte), 111, 111].length + [(32 : Byte), 38, 32].length + 6
            ∨ i = [(102 : Byte), 111, 111].length + [(32 : Byte), 38, 32].length
                + [(98 : Byte), 97, backslash, backslash].length + 8) →
          (TXTSanitize ([dquote] ++ [102, 111, 111] ++ [dquote] ++ [32, 38, 32] ++ [dquote]
              ++ [98, 97, backslash, backslash] ++ [dquote])).get? i = some dquote
            ∧ escRun (TXTSanitize ([dquote] ++ [102, 111, 111] ++ [dquote] ++ [32, 38, 32]
                ++ [dquote] ++ [98, 97, backslash, backslash] ++ [dquote])) i % 2 = 1 :=
  TXTSanitize_rewrap [102, 111, 111] [32, 38, 32] [98, 97, backslash, backslash] (by decide)
    (by decide) (by decide) (by decide) (by decide) (by decide)

end TxtSanitize
